import Mathlib

/-!
# Delta synchronisation (`rsync` package): checksums, matcher and reassembler

A shallow embedding of `check_sum.go`, `roll_sum.go` and `rsync.go`.

Modelling conventions.

* A Go `[]byte` is a `List Byte` (a value; aliasing of backing arrays is not
  modelled).  A Go `int` is an `Int`; the conversion `uint16(x)` is
  `x mod 2^16`.  Since `2^16` divides `2^64`, the truncation of a wrapped
  64-bit sum equals the truncation of the unbounded sum, so the accumulators
  of `calWeakSum` and `RollSum.Update` may be taken unbounded.
* A run that panics returns `Except.error`.  `Fault.invalidBlockLength` is the
  explicit `panic("invalid block length")`; `Fault.indexOutOfRange` is a
  runtime index or slice bound failure; `Fault.negativeCap` is `make` with a
  negative capacity.  `Fault.fuel` marks a loop that did not finish within the
  iteration budget given to its model; the theorems show when it cannot occur.
* The strong checksum is MD4 followed by standard base64, both from libraries
  outside the package; it enters every definition as the parameter `H`.
* The read/write mutex of `RFile` is not modelled: every method is a function
  from the state before the call to the state after it.
-/

namespace Rsync

/-- Go `byte`. -/
abbrev Byte := Fin 256

/-- The ways a call can panic (and the exhausted budget of a loop model). -/
inductive Fault where
  | invalidBlockLength
  | indexOutOfRange
  | negativeCap
  | fuel
  deriving DecidableEq

/-- Go `int(len(buf))`. -/
def len {α : Type} (buf : List α) : Int := (buf.length : Int)

/-- Go `buf[i]`: panics unless `0 <= i < len(buf)`. -/
def index (buf : List Byte) (i : Int) : Except Fault Byte :=
  if 0 ≤ i ∧ i < len buf then .ok (buf.getD i.toNat 0) else .error .indexOutOfRange

/-- Go `buf[i:]`: panics unless `0 <= i <= len(buf)`. -/
def sliceFrom (buf : List Byte) (i : Int) : Except Fault (List Byte) :=
  if 0 ≤ i ∧ i ≤ len buf then .ok (buf.drop i.toNat) else .error .indexOutOfRange

/-- Go `buf[:n]` for `n` up to the length: panics unless `0 <= n <= len(buf)`. -/
def sliceTo (buf : List Byte) (n : Int) : Except Fault (List Byte) :=
  if 0 ≤ n ∧ n ≤ len buf then .ok (buf.take n.toNat) else .error .indexOutOfRange

/-- Go `uint16(x)` of an `int`. -/
def uint16 (x : Int) : Nat := (x % 65536).toNat

/-! ## check_sum.go -/

/-- The loop of `calWeakSum`: the list is `buf[i:]`, whose length is the
counter `l`; `a` and `b` are the accumulators. -/
def calWeakSumLoop : List Byte → Int → Int → Int × Int
  | [], a, b => (a, b)
  | c :: rest, a, b =>
      calWeakSumLoop rest (a + (c.val : Int)) (b + (len (c :: rest)) * (c.val : Int))

/-- Model of `calWeakSum`. -/
def calWeakSum (buf : List Byte) : Nat × Nat :=
  let r := calWeakSumLoop buf 0 0
  (uint16 r.1, uint16 r.2)

/-- Model of `joinWeakSum`: `int(a)<<16 + int(b)`. -/
def joinWeakSum (a b : Nat) : Int := (a : Int) * 65536 + (b : Int)

/-- Model of `calStrongSum`: the digest `H` (MD4, then base64) of the data. -/
def calStrongSum (H : List Byte → List Byte) (data : List Byte) : List Byte := H data

/-- The element loop of `CompareBytes`, run once the lengths agree. -/
def compareLoop : List Byte → List Byte → Bool
  | x :: xs, y :: ys => if x ≠ y then false else compareLoop xs ys
  | _, _ => true

/-- Model of `CompareBytes`. -/
def CompareBytes (b1 b2 : List Byte) : Bool :=
  if b1.length ≠ b2.length then false else compareLoop b1 b2

/-- Model of `RCheckSum`. -/
structure RCheckSum where
  Order : Int
  A : Nat
  B : Nat
  SS : List Byte
  deriving DecidableEq

/-- Model of `fillBlankByBlockLen`. -/
def fillBlankByBlockLen (buf : List Byte) (blockLen : Int) : Except Fault (List Byte) :=
  if len buf < blockLen then
    .ok (buf ++ List.replicate (blockLen - len buf).toNat (0 : Byte))
  else sliceTo buf blockLen

/-- Model of `cutByBlockLen`. -/
def cutByBlockLen (buf : List Byte) (blockLen : Int) : Except Fault (List Byte) :=
  if len buf < blockLen then .ok buf else sliceTo buf blockLen

/-- The loop of `calCheckSumByBlockLen` with loop variables `order`, `start`,
`end` (here `endv`); `checkSum` is the slice appended to.  The first argument bounds the
number of iterations. -/
def calCheckSumLoop (H : List Byte → List Byte) (buf : List Byte) (blockLen : Int) :
    Nat → Int → Int → Int → List RCheckSum → Except Fault (List RCheckSum)
  | fuel, order, start, endv, checkSum =>
    if start < len buf then
      match fuel with
      | 0 => .error .fuel
      | fuel + 1 =>
        match sliceFrom buf start with
        | .error e => .error e
        | .ok rest =>
          match fillBlankByBlockLen rest blockLen with
          | .error e => .error e
          | .ok tmpb =>
            let c : RCheckSum :=
              { Order := order, A := (calWeakSum tmpb).1, B := (calWeakSum tmpb).2,
                SS := calStrongSum H tmpb }
            calCheckSumLoop H buf blockLen fuel (order + 1) endv (endv + blockLen)
              (checkSum ++ [c])
    else .ok checkSum

/-- Model of `calCheckSumByBlockLen`.  With `blockLen >= 1` every iteration
moves `start` forward, so `len(buf)` iterations are enough. -/
def calCheckSumByBlockLen (H : List Byte → List Byte) (buf : List Byte) (blockLen : Int) :
    Except Fault (List RCheckSum) :=
  calCheckSumLoop H buf blockLen buf.length 0 0 blockLen []

/-! ## roll_sum.go -/

/-- Model of `RollSum`. -/
structure RollSum where
  a : Nat
  b : Nat
  xk : Byte
  chunkLen : Int
  deriving DecidableEq

/-- Model of `NewRollSum`. -/
def NewRollSum (chunkLen : Int) : RollSum := { a := 0, b := 0, xk := 0, chunkLen := chunkLen }

/-- Model of `RollSum.InitByBuf`; `buf[0]` panics on an empty buffer. -/
def RollSum.InitByBuf (_r : RollSum) (buf : List Byte) : Except Fault RollSum :=
  match index buf 0 with
  | .error e => .error e
  | .ok x => .ok { a := (calWeakSum buf).1, b := (calWeakSum buf).2, xk := x, chunkLen := len buf }

/-- Model of `RollSum.Update`. -/
def RollSum.Update (r : RollSum) (xk_1 xl : Byte) : RollSum :=
  let a : Int := (r.a : Int) - (r.xk.val : Int) + (xl.val : Int)
  let b : Int := a + (r.b : Int) - r.chunkLen * (r.xk.val : Int)
  { a := uint16 a, b := uint16 b, xk := xk_1, chunkLen := r.chunkLen }

/-- Model of `RollSum.GetWeakSum`. -/
def RollSum.GetWeakSum (r : RollSum) : Nat × Nat := (r.a, r.b)

/-! ## rsync.go -/

/-- Model of `RFile` (without its mutex). -/
structure RFile where
  data : List Byte
  totalSum : List Byte
  blockLen : Int
  blockSum : List RCheckSum
  deriving DecidableEq

/-- Model of `RSameChunk`. -/
structure RSameChunk where
  start : Int
  order : Int
  deriving DecidableEq

/-- Model of `RDiffChunk`. -/
structure RDiffChunk where
  Order : Int
  Data : List Byte
  deriving DecidableEq

/-- Model of `NewRFile`. -/
def NewRFile (blockLen : Int) : RFile :=
  { data := [], totalSum := [], blockLen := if blockLen < 64 then 256 else blockLen,
    blockSum := [] }

/-- Model of `RFile.calBlockSum`. -/
def RFile.calBlockSum (H : List Byte → List Byte) (rf : RFile) : Except Fault RFile :=
  if rf.blockLen = 0 then .error .invalidBlockLength
  else
    match calCheckSumByBlockLen H rf.data rf.blockLen with
    | .error e => .error e
    | .ok t => .ok { rf with blockSum := t }

/-- Model of `RFile.SetBlockLen`. -/
def RFile.SetBlockLen (H : List Byte → List Byte) (rf : RFile) (l : Int) : Except Fault RFile :=
  if l = 0 then .error .invalidBlockLength
  else if rf.blockLen ≠ l then
    let rf1 := { rf with blockLen := l }
    if len rf1.data > 0 then rf1.calBlockSum H else .ok rf1
  else .ok rf

/-- Model of `RFile.SetData`. -/
def RFile.SetData (H : List Byte → List Byte) (rf : RFile) (buf : List Byte)
    (calBlockSum : Bool) : Except Fault RFile :=
  let rf1 := { rf with data := buf, totalSum := calStrongSum H buf }
  if calBlockSum then rf1.calBlockSum H else .ok rf1

/-- Model of `RFile.GetProperties`: copies of the three properties. -/
def RFile.GetProperties (rf : RFile) : Int × List Byte × List RCheckSum :=
  (rf.blockLen, rf.totalSum, rf.blockSum)

/-- Model of `RFile.GetData`: a copy of the buffer. -/
def RFile.GetData (rf : RFile) : List Byte := rf.data

/-- The map built at the start of `CheckByCheckSum`: the value stored under a
key is the list of the entries of `sums` with that weak key, in the sequence
of `sums` (each entry is appended to the list of its key). -/
def makeMap (sums : List RCheckSum) (w : Int) : List RCheckSum :=
  sums.filter (fun s => decide (joinWeakSum s.A s.B = w))

/-- The inner loop over the candidates `checkSums`: the first one whose strong
sum equals `strongSum`, if any. -/
def firstStrong (strongSum : List Byte) : List RCheckSum → Option RCheckSum
  | [] => none
  | c :: cs => if CompareBytes strongSum c.SS then some c else firstStrong strongSum cs

/-- The window `fillBlankByBlockLen(rf.data[begin:], blockLen)`. -/
def window (data : List Byte) (begin blockLen : Int) : Except Fault (List Byte) :=
  match sliceFrom data begin with
  | .error e => .error e
  | .ok rest => fillBlankByBlockLen rest blockLen

/-- The first statement of the scan body: re-seed the rolling sum when `init`
is set, otherwise roll it by one byte. -/
def scanSum (data : List Byte) (blockLen : Int) (init : Bool) (begin : Int)
    (rollSum : RollSum) : Except Fault RollSum :=
  if init then
    match window data begin blockLen with
    | .error e => .error e
    | .ok w => rollSum.InitByBuf w
  else
    match index data begin with
    | .error e => .error e
    | .ok x =>
      match index data (begin + blockLen - 1) with
      | .error e => .error e
      | .ok y => .ok (rollSum.Update x y)

/-- The scan loop `NEXT` of `CheckByCheckSum` with loop variables `init`,
`begin`, the rolling sum and the `sameChunks` collected so far.  The first
argument bounds the number of iterations. -/
def scan (H : List Byte → List Byte) (data : List Byte) (blockLen : Int)
    (m : Int → List RCheckSum) :
    Nat → Bool → Int → RollSum → List RSameChunk → Except Fault (List RSameChunk)
  | fuel, init, begin, rollSum, sameChunks =>
    if begin < len data then
      match fuel with
      | 0 => .error .fuel
      | fuel + 1 =>
        match scanSum data blockLen init begin rollSum with
        | .error e => .error e
        | .ok rs =>
          let checkSums := m (joinWeakSum rs.a rs.b)
          if checkSums.length > 0 then
            match window data begin blockLen with
            | .error e => .error e
            | .ok w =>
              match firstStrong (calStrongSum H w) checkSums with
              | some c =>
                scan H data blockLen m fuel true (begin + blockLen) rs
                  (sameChunks ++ [{ start := begin, order := c.Order }])
              | none => scan H data blockLen m fuel false (begin + 1) rs sameChunks
          else scan H data blockLen m fuel false (begin + 1) rs sameChunks
    else .ok sameChunks

/-- Go `sort.Slice(sameChunks, order <)`.  The library sort is not stable; the
model is a stable sort, so it fixes the position of chunks with equal order,
which the library leaves open. -/
def sortSame (cs : List RSameChunk) : List RSameChunk :=
  cs.insertionSort (fun x y => x.order ≤ y.order)

/-- Go `sort.Slice(diffChunks, Order <)`, with the same convention. -/
def sortDiff (cs : List RDiffChunk) : List RDiffChunk :=
  cs.insertionSort (fun x y => x.Order ≤ y.Order)

/-- The loop `for ; o < n; o++ { diffOrders = append(diffOrders, o) }`: the
orders it appends, `o, o+1, ..., n-1`. -/
def countUp (o n : Int) : List Int :=
  (List.range (n - o).toNat).map (fun (k : Nat) => o + (k : Int))

/-- The walk that collects the diff orders: cursor `o` and the orders
appended so far, over the sorted `sameChunks`. -/
def collectDiff : List RSameChunk → Int → List Int → Int × List Int
  | [], o, diffOrders => (o, diffOrders)
  | chunk :: rest, o, diffOrders =>
      collectDiff rest (max o chunk.order + 1) (diffOrders ++ countUp o chunk.order)

/-- The four results of `CheckByCheckSum`. -/
structure CheckResult where
  same : Bool
  reset : Bool
  sameChunks : List RSameChunk
  diffOrders : List Int
  deriving DecidableEq

/-- Model of `RFile.CheckByCheckSum`.  Every iteration of the scan moves
`begin` forward, so `len(rf.data)` iterations are enough. -/
def RFile.CheckByCheckSum (H : List Byte → List Byte) (rf : RFile) (blockLen : Int)
    (totalSum : List Byte) (sums : List RCheckSum) : Except Fault CheckResult :=
  if rf.blockLen = 0 ∨ blockLen = 0 then .error .invalidBlockLength
  else if CompareBytes totalSum rf.totalSum then
    .ok { same := true, reset := false, sameChunks := [], diffOrders := [] }
  else if rf.blockLen ≠ blockLen then
    .ok { same := false, reset := true, sameChunks := [], diffOrders := [] }
  else
    match scan H rf.data blockLen (makeMap sums) rf.data.length true 0 (NewRollSum blockLen) [] with
    | .error e => .error e
    | .ok found =>
      let sameChunks := sortSame found
      let r := collectDiff sameChunks 0 []
      .ok { same := false, reset := false, sameChunks := sameChunks,
            diffOrders := r.2 ++ countUp r.1 (len sums) }

/-- The loop of `GetDiffChunks` over the requested orders. -/
def diffChunksLoop (data : List Byte) (blockLen : Int) :
    List Int → Except Fault (List RDiffChunk)
  | [] => .ok []
  | order :: rest =>
    match sliceFrom data (order * blockLen) with
    | .error e => .error e
    | .ok tail =>
      match cutByBlockLen tail blockLen with
      | .error e => .error e
      | .ok d =>
        match diffChunksLoop data blockLen rest with
        | .error e => .error e
        | .ok cs => .ok ({ Order := order, Data := d } :: cs)

/-- Model of `RFile.GetDiffChunks`. -/
def RFile.GetDiffChunks (rf : RFile) (diffOrders : List Int) :
    Except Fault (Int × List Byte × List RDiffChunk) :=
  if rf.blockLen = 0 then .error .invalidBlockLength
  else
    match diffChunksLoop rf.data rf.blockLen diffOrders with
    | .error e => .error e
    | .ok cs => .ok (rf.blockLen, rf.totalSum, cs)

/-- The assembling loop of `AssembleByChunks`.  The first argument is the
number of iterations left, `totalChunkNum - cur`; the chunk lists are the
sorted slices from index `i` and from index `j` on, so `sameChunks[i]` is the
head of the first, and an index past the end (an empty list) panics.  The
result `none` is the `return false` of the loop. -/
def assembleLoop (data : List Byte) (blockLen : Int) :
    Nat → Int → List RSameChunk → List RDiffChunk → List Byte →
      Except Fault (Option (List Byte))
  | 0, _, _, _, buf => .ok (some buf)
  | n + 1, cur, sameChunks, diffChunks, buf =>
    let si := sameChunks.dropWhile (fun c => decide (c.order < cur))
    let dj := diffChunks.dropWhile (fun c => decide (c.Order < cur))
    match si with
    | [] => .error .indexOutOfRange
    | s :: _ =>
      if cur = s.order then
        match sliceFrom data s.start with
        | .error e => .error e
        | .ok tail =>
          match cutByBlockLen tail blockLen with
          | .error e => .error e
          | .ok piece => assembleLoop data blockLen n (cur + 1) si dj (buf ++ piece)
      else
        match dj with
        | [] => .error .indexOutOfRange
        | d :: _ =>
          if cur = d.Order then assembleLoop data blockLen n (cur + 1) si dj (buf ++ d.Data)
          else .ok none

/-- Model of `RFile.AssembleByChunks`: the state after the call and the
returned boolean. -/
def RFile.AssembleByChunks (H : List Byte → List Byte) (rf : RFile) (blockLen : Int)
    (sameChunks : List RSameChunk) (diffChunks : List RDiffChunk) :
    Except Fault (RFile × Bool) :=
  if rf.blockLen = 0 ∨ blockLen = 0 then .error .invalidBlockLength
  else if rf.blockLen ≠ blockLen then .ok (rf, false)
  else
    let totalChunkNum := sameChunks.length + diffChunks.length
    if (totalChunkNum : Int) * blockLen < 0 then .error .negativeCap
    else
      match assembleLoop rf.data blockLen totalChunkNum 0 (sortSame sameChunks)
          (sortDiff diffChunks) [] with
      | .error e => .error e
      | .ok none => .ok (rf, false)
      | .ok (some buf) =>
        match RFile.calBlockSum H { rf with data := buf } with
        | .error e => .error e
        | .ok rf1 => .ok (rf1, true)

/-! ## Test_Rsync (rsync_test.go) -/

/-- The two files of `Test_Rsync`, both created by `NewRFile` and brought to
block length `blockSize`: the server holds `newBuf` with its block table, the
client holds `buf` without one. -/
def testFiles (H : List Byte → List Byte) (blockSize : Int) (buf newBuf : List Byte) :
    Except Fault (RFile × RFile) :=
  match (NewRFile blockSize).SetBlockLen H blockSize with
  | .error e => .error e
  | .ok f =>
    match f.SetData H newBuf true with
    | .error e => .error e
    | .ok server =>
      match f.SetData H buf false with
      | .error e => .error e
      | .ok client => .ok (server, client)

/-- The negotiation of `Test_Rsync` from the label `BEGIN` on; the first
argument bounds the number of times `BEGIN` is entered.  The result is the
client once the test returns, or `none` when the bound is used up. -/
def negotiate (H : List Byte → List Byte) : Nat → RFile → RFile → Except Fault (Option RFile)
  | 0, _, _ => .ok none
  | n + 1, server, client =>
    match client.CheckByCheckSum H server.GetProperties.1 server.GetProperties.2.1
        server.GetProperties.2.2 with
    | .error e => .error e
    | .ok r =>
      if r.same then .ok (some client)
      else if r.reset then
        match client.SetBlockLen H server.GetProperties.1 with
        | .error e => .error e
        | .ok c => negotiate H n server c
      else
        match server.GetDiffChunks r.diffOrders with
        | .error e => .error e
        | .ok d =>
          if !CompareBytes server.GetProperties.2.1 d.2.1 then negotiate H n server client
          else
            match client.AssembleByChunks H d.1 r.sameChunks d.2.2 with
            | .error e => .error e
            | .ok (c, success) => if success then .ok (some c) else negotiate H n server c

/-- Model of `Test_Rsync` on given buffers: create the two files, then
negotiate, entering `BEGIN` at most `rounds` times. -/
def Test_Rsync (H : List Byte → List Byte) (rounds : Nat) (blockSize : Int)
    (buf newBuf : List Byte) : Except Fault (Option RFile) :=
  match testFiles H blockSize buf newBuf with
  | .error e => .error e
  | .ok (server, client) => negotiate H rounds server client

/-! ## Specification-side definitions -/

/-- The weak checksum as the specification words it: `a` is the sum of the
bytes and `b` the sum of `(n - i) * w[i]`, both truncated to 16 bits. -/
def weakSumSpec (w : List Byte) : Nat × Nat :=
  ((∑ i in Finset.range w.length, (w.getD i 0).val) % 65536,
   (∑ i in Finset.range w.length, (w.length - i) * (w.getD i 0).val) % 65536)

/-- The window the specification assigns to block `i` of a table: the bytes
`buf[i*B .. min((i+1)*B, len(buf)))` right-padded with zero bytes to length
exactly `B`. -/
def paddedBlock (buf : List Byte) (B i : Nat) : List Byte :=
  let w := (buf.take (min ((i + 1) * B) buf.length)).drop (i * B)
  w ++ List.replicate (B - w.length) (0 : Byte)

/-- A rolling sum seeded by `InitByBuf` on `buf[k : k+n]` and then slid `m`
times by one byte; slide number `j` (from 1) is
`Update(buf[k+j], buf[k+j+n-1])`, whose first argument is the first byte of
the new window. -/
def slide (buf : List Byte) (n k : Nat) : Nat → Except Fault RollSum
  | 0 => (NewRollSum n).InitByBuf ((buf.drop k).take n)
  | m + 1 =>
    match slide buf n k m with
    | .error e => .error e
    | .ok r =>
      match index buf ((k + m + 1 : Nat) : Int) with
      | .error e => .error e
      | .ok x =>
        match index buf ((k + m + n : Nat) : Int) with
        | .error e => .error e
        | .ok y => .ok (r.Update x y)

/-- Sum of the bytes of a window, unbounded. -/
def sumA : List Byte → Int
  | [] => 0
  | c :: rest => (c.val : Int) + sumA rest

/-- Weighted sum of the bytes of a window, the first byte weighted by the
length of the window and the last by one, unbounded. -/
def sumB : List Byte → Int
  | [] => 0
  | c :: rest => len (c :: rest) * (c.val : Int) + sumB rest

/-- The table entry the specification assigns to block `i`: its order and the
weak and strong sums of its padded window. -/
def blockEntry (H : List Byte → List Byte) (buf : List Byte) (B i : Nat) : RCheckSum :=
  { Order := (i : Int), A := (calWeakSum (paddedBlock buf B i)).1,
    B := (calWeakSum (paddedBlock buf B i)).2, SS := calStrongSum H (paddedBlock buf B i) }

/-- Number of blocks of a buffer of `n` bytes at block length `B`. -/
def blockCount (n B : Nat) : Nat := (n + B - 1) / B

/-- A file state is consistent when its total checksum is that of its buffer
and its block table is the table of its buffer at its block length. -/
def Consistent (H : List Byte → List Byte) (rf : RFile) : Prop :=
  rf.totalSum = calStrongSum H rf.data ∧
    calCheckSumByBlockLen H rf.data rf.blockLen = .ok rf.blockSum

/-- The natural (unpadded) bytes of block `order` at block length `B`:
`buffer[order*B .. min((order+1)*B, len(buffer)))`. -/
def naturalBlock (buf : List Byte) (B order : Nat) : List Byte :=
  (buf.take (min ((order + 1) * B) buf.length)).drop (order * B)

/-- The window of the source at offset `start`: the buffer from `start`, cut
or zero-padded to exactly `B` bytes. -/
def paddedWindow (data : List Byte) (start B : Nat) : List Byte :=
  (data.drop start).take B ++ List.replicate (B - (data.length - start)) (0 : Byte)

/-- The first entry, in table sequence, whose weak pair is `calWeakSum(w)` and
whose strong sum is `calStrongSum(w)`. -/
def firstEntry (H : List Byte → List Byte) (sums : List RCheckSum) (w : List Byte) :
    Option RCheckSum :=
  sums.find? (fun s => decide ((s.A, s.B) = calWeakSum w) && decide (s.SS = calStrongSum H w))

/-- The rolling sum `rs` holds the sums of the window at offset `pos`, its
first byte and its length. -/
def Rolled (data : List Byte) (B pos : Int) (rs : RollSum) : Prop :=
  1 ≤ B ∧ 0 ≤ pos ∧ pos < len data ∧
    rs.a = (calWeakSum (paddedWindow data pos.toNat B.toNat)).1 ∧
    rs.b = (calWeakSum (paddedWindow data pos.toNat B.toNat)).2 ∧
    rs.xk = data.getD pos.toNat 0 ∧ rs.chunkLen = B

/-- The chunk list is dominated from `c`: its `j`-th order is at most `c + j`. -/
def Dominated : List RSameChunk → Int → Prop
  | [], _ => True
  | y :: l, c => y.order ≤ c ∧ Dominated l (c + 1)

/-- The chunk `c` was accepted by the scan over the map `m`: its start is
inside the buffer and its order is that of the first candidate stored under
the weak key of the window at its start whose strong sum is that of the
window. -/
def Accepted (H : List Byte → List Byte) (data : List Byte) (B : Int)
    (m : Int → List RCheckSum) (c : RSameChunk) : Prop :=
  0 ≤ c.start ∧ c.start < len data ∧ 1 ≤ B ∧
    ∃ e, firstStrong (calStrongSum H (paddedWindow data c.start.toNat B.toNat))
        (m (joinWeakSum (calWeakSum (paddedWindow data c.start.toNat B.toNat)).1
          (calWeakSum (paddedWindow data c.start.toNat B.toNat)).2)) = some e ∧
      e.Order = c.order

/-- The order the scan binds a window `w` to: that of the first table entry
with the sums of `w` (0 when there is none). -/
def boundOrder (H : List Byte → List Byte) (sums : List RCheckSum) (w : List Byte) : Int :=
  match firstEntry H sums w with
  | some e => e.Order
  | none => 0

/-- The chunk the scan records for source block `i` at block length `b`. -/
def blockChunk (H : List Byte → List Byte) (sums : List RCheckSum) (src : List Byte)
    (b i : Nat) : RSameChunk :=
  { start := ((i * b : Nat) : Int), order := boundOrder H sums (naturalBlock src b i) }

/-! ## Lemmas on the weak checksum -/

theorem calWeakSumLoop_eq (buf : List Byte) (a b : Int) :
    calWeakSumLoop buf a b = (a + sumA buf, b + sumB buf) := by
  induction buf generalizing a b with
  | nil => simp [calWeakSumLoop, sumA, sumB]
  | cons c rest ih =>
    simp only [calWeakSumLoop, sumA, sumB, ih]
    simp [add_assoc]

theorem calWeakSum_eq (buf : List Byte) :
    calWeakSum buf = (uint16 (sumA buf), uint16 (sumB buf)) := by
  simp [calWeakSum, calWeakSumLoop_eq]

theorem sumA_eq_sum (w : List Byte) :
    sumA w = ((∑ i in Finset.range w.length, (w.getD i 0).val : Nat) : Int) := by
  induction w with
  | nil => simp [sumA]
  | cons c rest ih =>
    rw [sumA, ih, List.length_cons, Finset.sum_range_succ']
    simp [add_comm]

theorem sumB_eq_sum (w : List Byte) :
    sumB w =
      ((∑ i in Finset.range w.length, (w.length - i) * (w.getD i 0).val : Nat) : Int) := by
  induction w with
  | nil => simp [sumB]
  | cons c rest ih =>
    rw [sumB, ih, List.length_cons, Finset.sum_range_succ']
    simp only [Nat.add_sub_add_right]
    simp [add_comm, len]

theorem uint16_natCast (n : Nat) : uint16 (n : Int) = n % 65536 := by
  unfold uint16
  omega

/-- C9. For every byte window `w` of length `n`, `calWeakSum(w)` is the pair
`(a, b)` with `a` the sum of the `w[i]` modulo `2^16` and `b` the sum of the
`(n - i) * w[i]` modulo `2^16`, `i` ranging over `[0, n)`. -/
theorem calWeakSum_eq_weakSumSpec (w : List Byte) : calWeakSum w = weakSumSpec w := by
  rw [calWeakSum_eq, sumA_eq_sum, sumB_eq_sum, uint16_natCast, uint16_natCast]
  rfl

/-! ## Lemmas on the rolling update -/

theorem sumA_append_single (mid : List Byte) (y : Byte) :
    sumA (mid ++ [y]) = sumA mid + (y.val : Int) := by
  induction mid with
  | nil => simp [sumA]
  | cons c rest ih => simp [sumA, ih, add_assoc]

theorem sumB_append_single (mid : List Byte) (y : Byte) :
    sumB (mid ++ [y]) = sumB mid + sumA mid + (y.val : Int) := by
  induction mid with
  | nil => simp [sumA, sumB, len]
  | cons c rest ih =>
    have hc : (c :: rest) ++ [y] = c :: (rest ++ [y]) := rfl
    rw [hc, sumB, sumB, sumA, ih]
    simp only [len, List.length_cons, List.length_append, List.length_nil]
    push_cast
    ring

theorem uint16_roll_a (sa x y : Int) :
    uint16 (((uint16 sa : Nat) : Int) - x + y) = uint16 (sa - x + y) := by
  unfold uint16
  omega

theorem uint16_roll_b (sa sb x y t : Int) :
    uint16 (((uint16 sa : Nat) : Int) - x + y + ((uint16 sb : Nat) : Int) - t)
      = uint16 (sb + (sa - x) + y - t) := by
  unfold uint16
  omega

/-- One `Update` turns the sums of the window `x :: mid` into those of the
window `mid ++ [y]`. -/
theorem update_window (r : RollSum) (x x1 y : Byte) (mid : List Byte)
    (ha : r.a = uint16 (sumA (x :: mid))) (hb : r.b = uint16 (sumB (x :: mid)))
    (hx : r.xk = x) (hl : r.chunkLen = len (x :: mid)) :
    (r.Update x1 y).a = uint16 (sumA (mid ++ [y])) ∧
    (r.Update x1 y).b = uint16 (sumB (mid ++ [y])) ∧
    (r.Update x1 y).xk = x1 ∧ (r.Update x1 y).chunkLen = len (mid ++ [y]) := by
  refine ⟨?_, ?_, rfl, ?_⟩
  · simp only [RollSum.Update, ha, hx, uint16_roll_a, sumA_append_single, sumA]
    congr 1
    ring
  · simp only [RollSum.Update, ha, hb, hx, hl, uint16_roll_b, sumA_append_single,
      sumB_append_single, sumA, sumB]
    congr 1
    ring
  · simp [RollSum.Update, hl, len]

theorem index_ok (buf : List Byte) (i : Nat) (h : i < buf.length) :
    index buf (i : Int) = .ok (buf.getD i 0) := by
  simp [index, len, h]

/-- The window at `k` starts with `buf[k]`. -/
theorem window_head (buf : List Byte) (n k : Nat) (h : k + n + 1 ≤ buf.length) :
    (buf.drop k).take (n + 1) = buf.getD k 0 :: (buf.drop (k + 1)).take n := by
  have hk : k < buf.length := by omega
  rw [List.drop_eq_getElem_cons hk, List.take_succ_cons]
  simp [List.getD_eq_getElem?_getD, List.getElem?_eq_getElem hk]

/-- The window at `k + 1` ends with `buf[k + n + 1]`. -/
theorem window_last (buf : List Byte) (n k : Nat) (h : k + n + 1 < buf.length) :
    (buf.drop (k + 1)).take (n + 1) = (buf.drop (k + 1)).take n ++ [buf.getD (k + n + 1) 0] := by
  have hk : k + 1 + n < buf.length := by omega
  rw [List.take_succ, List.getElem?_drop, List.getElem?_eq_getElem hk]
  simp [List.getD_eq_getElem?_getD, show k + n + 1 = k + 1 + n by omega,
    List.getElem?_eq_getElem hk]

theorem initByBuf_window (r0 : RollSum) (buf : List Byte) (n k : Nat)
    (h : k + n + 1 ≤ buf.length) :
    ∃ r, r0.InitByBuf ((buf.drop k).take (n + 1)) = .ok r ∧
      r.a = uint16 (sumA ((buf.drop k).take (n + 1))) ∧
      r.b = uint16 (sumB ((buf.drop k).take (n + 1))) ∧
      r.xk = buf.getD k 0 ∧ r.chunkLen = ((n + 1 : Nat) : Int) := by
  have hlen : ((buf.drop k).take (n + 1)).length = n + 1 := by
    simp only [List.length_take, List.length_drop]
    omega
  rw [window_head buf n k h] at hlen ⊢
  have hidx : index (buf.getD k 0 :: (buf.drop (k + 1)).take n) 0 = .ok (buf.getD k 0) := by
    simp [index, len]
    omega
  simp only [RollSum.InitByBuf, hidx]
  exact ⟨_, rfl, by simp [calWeakSum_eq], by simp [calWeakSum_eq], rfl, by simp only [len, hlen]⟩

/-- Invariant of `slide`: after `m` slides the rolling sum holds the sums of
the window at `k + m`, its first byte and its length. -/
theorem slide_spec (buf : List Byte) (n k : Nat) :
    ∀ m, k + m + n + 1 ≤ buf.length →
      ∃ r, slide buf (n + 1) k m = .ok r ∧
        r.a = uint16 (sumA ((buf.drop (k + m)).take (n + 1))) ∧
        r.b = uint16 (sumB ((buf.drop (k + m)).take (n + 1))) ∧
        r.xk = buf.getD (k + m) 0 ∧ r.chunkLen = ((n + 1 : Nat) : Int) := by
  intro m
  induction m with
  | zero =>
    intro h
    exact initByBuf_window (NewRollSum ((n + 1 : Nat) : Int)) buf n k (by omega)
  | succ m ih =>
    intro h
    obtain ⟨r, hr, ha, hb, hx, hl⟩ := ih (by omega)
    have hW := window_head buf n (k + m) (by omega)
    have hW1 := window_last buf n (k + m) (by omega)
    have hmid : ((buf.drop (k + m + 1)).take n).length = n := by
      simp only [List.length_take, List.length_drop]
      omega
    rw [hW] at ha hb
    have hl1 : r.chunkLen = len (buf.getD (k + m) 0 :: (buf.drop (k + m + 1)).take n) := by
      rw [hl]
      simp [len, hmid]
    have hu := update_window r (buf.getD (k + m) 0) (buf.getD (k + m + 1) 0)
      (buf.getD (k + m + n + 1) 0) _ ha hb hx hl1
    refine ⟨r.Update (buf.getD (k + m + 1) 0) (buf.getD (k + m + n + 1) 0), ?_, ?_, ?_, ?_, ?_⟩
    · simp only [slide, hr]
      rw [index_ok buf (k + m + 1) (by omega), index_ok buf (k + m + (n + 1)) (by omega)]
      rfl
    · rw [show k + (m + 1) = k + m + 1 by omega, hW1]
      exact hu.1
    · rw [show k + (m + 1) = k + m + 1 by omega, hW1]
      exact hu.2.1
    · rw [show k + (m + 1) = k + m + 1 by omega]
      exact hu.2.2.1
    · rw [hu.2.2.2]
      simp [len, hmid]

/-- C6. Rolling correctness: for a window size `n >= 1`, a rolling sum seeded
by `InitByBuf` on `buf[k..k+n)` and updated by `Update(buf[k+1], buf[k+n])`
(both bytes exist when `k + n < len(buf)`) holds exactly
`calWeakSum(buf[k+1..k+n+1))`; and after any number `m` of consecutive one-byte
slides that stay inside the buffer, each `Update` getting the first byte of
the new window, it holds `calWeakSum(buf[k+m..k+m+n))`. -/
theorem rolling_correct (buf : List Byte) (n k : Nat) (hn : 1 ≤ n) :
    (k + n < buf.length →
      ∃ r x y, (NewRollSum (n : Int)).InitByBuf ((buf.drop k).take n) = .ok r ∧
        index buf ((k : Int) + 1) = .ok x ∧ index buf ((k : Int) + (n : Int)) = .ok y ∧
        (r.Update x y).GetWeakSum = calWeakSum ((buf.drop (k + 1)).take n)) ∧
    (∀ m, k + m + n ≤ buf.length →
      ∃ r, slide buf n k m = .ok r ∧
        r.GetWeakSum = calWeakSum ((buf.drop (k + m)).take n)) := by
  obtain ⟨n, rfl⟩ : ∃ n1, n = n1 + 1 := ⟨n - 1, by omega⟩
  constructor
  · intro h
    obtain ⟨r0, hr0, -⟩ := slide_spec buf n k 0 (by omega)
    obtain ⟨r1, hr1, ha, hb, -⟩ := slide_spec buf n k 1 (by omega)
    simp only [slide] at hr0
    simp only [slide, hr0] at hr1
    rw [index_ok buf (k + 0 + 1) (by omega), index_ok buf (k + 0 + (n + 1)) (by omega)] at hr1
    refine ⟨r0, buf.getD (k + 0 + 1) 0, buf.getD (k + 0 + (n + 1)) 0, hr0, ?_, ?_, ?_⟩
    · have := index_ok buf (k + 0 + 1) (by omega)
      simpa using this
    · have := index_ok buf (k + 0 + (n + 1)) (by omega)
      simpa using this
    · injection hr1 with hr1
      rw [RollSum.GetWeakSum, hr1, ha, hb, calWeakSum_eq]
  · intro m h
    obtain ⟨r, hr, ha, hb, -⟩ := slide_spec buf n k m (by omega)
    exact ⟨r, hr, by rw [RollSum.GetWeakSum, ha, hb, calWeakSum_eq]⟩

/-- The rolling property at a concrete buffer: window size 2, offset 0. -/
theorem rolling_correct_witness :
    (0 + 2 < ([1, 2, 3, 4] : List Byte).length →
      ∃ r x y, (NewRollSum ((2 : Nat) : Int)).InitByBuf ((([1, 2, 3, 4] : List Byte).drop 0).take 2)
          = .ok r ∧
        index [1, 2, 3, 4] (((0 : Nat) : Int) + 1) = .ok x ∧
        index [1, 2, 3, 4] (((0 : Nat) : Int) + ((2 : Nat) : Int)) = .ok y ∧
        (r.Update x y).GetWeakSum = calWeakSum ((([1, 2, 3, 4] : List Byte).drop (0 + 1)).take 2)) ∧
    (∀ m, 0 + m + 2 ≤ ([1, 2, 3, 4] : List Byte).length →
      ∃ r, slide [1, 2, 3, 4] 2 0 m = .ok r ∧
        r.GetWeakSum = calWeakSum ((([1, 2, 3, 4] : List Byte).drop (0 + m)).take 2)) :=
  rolling_correct [1, 2, 3, 4] 2 0 (by decide)

/-! ## The block table -/

theorem sliceFrom_ok (buf : List Byte) (i : Nat) (h : i ≤ buf.length) :
    sliceFrom buf (i : Int) = .ok (buf.drop i) := by
  simp [sliceFrom, len, h]

/-- The padded window the table builder hashes for block `j`. -/
theorem fillBlank_block (buf : List Byte) (b j : Nat) :
    fillBlankByBlockLen (buf.drop (j * b)) (b : Int) = .ok (paddedBlock buf b j) := by
  unfold fillBlankByBlockLen paddedBlock
  by_cases h : len (buf.drop (j * b)) < (b : Int)
  · have h1 : buf.length < (j + 1) * b := by
      simp only [len, List.length_drop] at h
      have : (j + 1) * b = j * b + b := by ring
      omega
    rw [if_pos h, min_eq_right (le_of_lt h1), List.take_length]
    simp only [len]
    congr 3
    omega
  · have h1 : (j + 1) * b ≤ buf.length := by
      simp only [len, List.length_drop] at h
      have : (j + 1) * b = j * b + b := by ring
      have h0 : b = 0 → j * b = 0 := fun hz => by simp [hz]
      omega
    have h2 : b ≤ buf.length - j * b := by
      simp only [len, List.length_drop] at h
      omega
    rw [if_neg h, min_eq_left h1, List.drop_take]
    have h3 : (j + 1) * b - j * b = b := by
      have : (j + 1) * b = j * b + b := by ring
      omega
    simp [sliceTo, len, h2, h3]

theorem lt_blockCount_iff (n b j : Nat) (hb : 1 ≤ b) : j < blockCount n b ↔ j * b < n := by
  unfold blockCount
  rw [Nat.lt_iff_add_one_le, Nat.le_div_iff_mul_le (by omega)]
  have : (j + 1) * b = j * b + b := by ring
  omega

/-- Invariant of the table loop: entering with order `j`, `start = j*b`,
`end = (j+1)*b` and the entries of the blocks before `j`, it returns the entries
of all blocks. -/
theorem calCheckSumLoop_spec (H : List Byte → List Byte) (buf : List Byte) (b : Nat)
    (hb : 1 ≤ b) :
    ∀ fuel j, j ≤ blockCount buf.length b → blockCount buf.length b - j ≤ fuel →
      calCheckSumLoop H buf (b : Int) fuel (j : Int) ((j * b : Nat) : Int)
          (((j + 1) * b : Nat) : Int) ((List.range j).map (blockEntry H buf b))
        = .ok ((List.range (blockCount buf.length b)).map (blockEntry H buf b)) := by
  intro fuel
  induction fuel with
  | zero =>
    intro j hj hf
    have hjN : j = blockCount buf.length b := by omega
    have hge : ¬ j * b < buf.length := by
      rw [← lt_blockCount_iff buf.length b j hb]
      omega
    unfold calCheckSumLoop
    rw [if_neg (by simp only [len]; omega), hjN]
  | succ fuel ih =>
    intro j hj hf
    unfold calCheckSumLoop
    by_cases hlt : j * b < buf.length
    · have hjN : j < blockCount buf.length b := (lt_blockCount_iff buf.length b j hb).2 hlt
      rw [if_pos (by simp only [len]; omega), sliceFrom_ok buf (j * b) (le_of_lt hlt)]
      simp only [fillBlank_block]
      have hrec := ih (j + 1) hjN (by omega)
      rw [List.range_succ, List.map_append] at hrec
      have he : (((j + 1) * b : Nat) : Int) + (b : Int) = (((j + 1 + 1) * b : Nat) : Int) := by
        push_cast
        ring
      rw [he]
      exact hrec
    · have hjN : j = blockCount buf.length b := by
        have := (lt_blockCount_iff buf.length b j hb).not.2 hlt
        omega
      rw [if_neg (by simp only [len]; omega), hjN]

/-- The table of a buffer at block length `b >= 1`. -/
theorem calCheckSumByBlockLen_eq (H : List Byte → List Byte) (buf : List Byte) (b : Nat)
    (hb : 1 ≤ b) :
    calCheckSumByBlockLen H buf (b : Int)
      = .ok ((List.range (blockCount buf.length b)).map (blockEntry H buf b)) := by
  have hN : blockCount buf.length b ≤ buf.length := by
    by_contra hc
    have := (lt_blockCount_iff buf.length b buf.length hb).1 (by omega)
    nlinarith
  have := calCheckSumLoop_spec H buf b hb buf.length 0 (Nat.zero_le _) (by omega)
  simpa [calCheckSumByBlockLen] using this

theorem blockCount_cast_eq_ceil (n b : Nat) (hb : 1 ≤ b) :
    ((blockCount n b : Nat) : Int) = ⌈(n : ℚ) / (b : ℚ)⌉ := by
  have hbq : (0 : ℚ) < (b : ℚ) := by exact_mod_cast hb
  symm
  rw [Int.ceil_eq_iff]
  constructor
  · rw [lt_div_iff₀ hbq]
    rcases Nat.eq_zero_or_pos (blockCount n b) with h0 | hpos
    · rw [h0]
      have : (0 : ℚ) ≤ (n : ℚ) := Nat.cast_nonneg n
      push_cast
      linarith
    · have h1 : (blockCount n b - 1) * b < n :=
        (lt_blockCount_iff n b (blockCount n b - 1) hb).1 (by omega)
      have h2 : (((blockCount n b - 1) * b : Nat) : ℚ) < (n : ℚ) := by exact_mod_cast h1
      rw [Nat.cast_mul, Nat.cast_sub hpos] at h2
      push_cast at h2 ⊢
      linarith
  · rw [div_le_iff₀ hbq]
    have h1 : ¬ blockCount n b * b < n := by
      rw [← lt_blockCount_iff n b (blockCount n b) hb]
      omega
    have h2 : ((n : Nat) : ℚ) ≤ ((blockCount n b * b : Nat) : ℚ) := by
      exact_mod_cast Nat.le_of_not_lt h1
    push_cast at h2 ⊢
    linarith

/-- C7. Table shape: for every buffer and block length `B >= 1`,
`calCheckSumByBlockLen(buf, B)` returns a table with exactly
`ceil(len(buf) / B)` entries, none for the empty buffer, and the entry at
position `i` has `Order = i`. -/
theorem table_shape (H : List Byte → List Byte) (buf : List Byte) (B : Int) (hB : 1 ≤ B) :
    ∃ t, calCheckSumByBlockLen H buf B = .ok t ∧
      (t.length : Int) = ⌈(buf.length : ℚ) / (B : ℚ)⌉ ∧
      (buf = [] → t = []) ∧
      ∀ i (h : i < t.length), (t.get ⟨i, h⟩).Order = (i : Int) := by
  obtain ⟨b, rfl, hb⟩ : ∃ b : Nat, B = (b : Int) ∧ 1 ≤ b := ⟨B.toNat, by omega, by omega⟩
  refine ⟨_, calCheckSumByBlockLen_eq H buf b hb, ?_, ?_, ?_⟩
  · rw [List.length_map, List.length_range, blockCount_cast_eq_ceil buf.length b hb,
      Int.cast_natCast]
  · intro he
    subst he
    have : blockCount 0 b = 0 := by
      unfold blockCount
      exact Nat.div_eq_of_lt (by omega)
    simp [this]
  · intro i h
    simp [blockEntry]

/-- The table of a three-byte buffer at block length 2. -/
theorem table_shape_witness :
    ∃ t, calCheckSumByBlockLen id ([1, 2, 3] : List Byte) 2 = .ok t ∧
      (t.length : Int) = ⌈((([1, 2, 3] : List Byte).length : Nat) : ℚ) / ((2 : Int) : ℚ)⌉ ∧
      (([1, 2, 3] : List Byte) = [] → t = []) ∧
      ∀ i (h : i < t.length), (t.get ⟨i, h⟩).Order = (i : Int) :=
  table_shape id [1, 2, 3] 2 (by decide)

/-- C8. Table contents with zero padding: for every buffer and block length
`B >= 1`, entry `i` of `calCheckSumByBlockLen(buf, B)` has
`(A, B) = calWeakSum(w)` and `SS = calStrongSum(w)` for the window `w` made of
`buf[i*B .. min((i+1)*B, len(buf)))` right-padded with zero bytes to length
exactly `B`; a 65600-byte buffer at block length 256 yields 257 entries, the
last computed over the final 64 bytes followed by 192 zero bytes. -/
theorem table_contents (H : List Byte → List Byte) (buf : List Byte) (B : Int) (hB : 1 ≤ B) :
    ∃ t, calCheckSumByBlockLen H buf B = .ok t ∧
      (∀ i (h : i < t.length),
        ((t.get ⟨i, h⟩).A, (t.get ⟨i, h⟩).B) = calWeakSum (paddedBlock buf B.toNat i) ∧
        (t.get ⟨i, h⟩).SS = calStrongSum H (paddedBlock buf B.toNat i) ∧
        ((paddedBlock buf B.toNat i).length : Int) = B) ∧
      (buf.length = 65600 → B = 256 →
        t.length = 257 ∧ (buf.drop 65536).length = 64 ∧
        paddedBlock buf B.toNat 256 = buf.drop 65536 ++ List.replicate 192 (0 : Byte)) := by
  obtain ⟨b, rfl, hb⟩ : ∃ b : Nat, B = (b : Int) ∧ 1 ≤ b := ⟨B.toNat, by omega, by omega⟩
  refine ⟨_, calCheckSumByBlockLen_eq H buf b hb, ?_, ?_⟩
  · intro i h
    refine ⟨by simp [blockEntry], by simp [blockEntry], ?_⟩
    simp only [Int.toNat_ofNat, paddedBlock, List.length_append, List.length_replicate,
      List.length_drop, List.length_take]
    have hi : i * b < buf.length := by
      rw [← lt_blockCount_iff buf.length b i hb]
      simpa using h
    have : (i + 1) * b = i * b + b := by ring
    omega
  · intro hl hB256
    have hb256 : b = 256 := by omega
    subst hb256
    refine ⟨?_, ?_, ?_⟩
    · simp [blockCount, hl]
    · simp [hl]
    · simp only [Int.toNat_ofNat, paddedBlock]
      rw [min_eq_right (by omega), List.take_length]
      simp [hl]

/-- The contents of the table of a three-byte buffer at block length 2. -/
theorem table_contents_witness :
    ∃ t, calCheckSumByBlockLen id ([1, 2, 3] : List Byte) 2 = .ok t ∧
      (∀ i (h : i < t.length),
        ((t.get ⟨i, h⟩).A, (t.get ⟨i, h⟩).B)
            = calWeakSum (paddedBlock [1, 2, 3] (2 : Int).toNat i) ∧
        (t.get ⟨i, h⟩).SS = calStrongSum id (paddedBlock [1, 2, 3] (2 : Int).toNat i) ∧
        ((paddedBlock [1, 2, 3] (2 : Int).toNat i).length : Int) = 2) ∧
      (([1, 2, 3] : List Byte).length = 65600 → (2 : Int) = 256 →
        t.length = 257 ∧ (([1, 2, 3] : List Byte).drop 65536).length = 64 ∧
        paddedBlock [1, 2, 3] (2 : Int).toNat 256
          = ([1, 2, 3] : List Byte).drop 65536 ++ List.replicate 192 (0 : Byte)) :=
  table_contents id [1, 2, 3] 2 (by decide)


theorem compareLoop_self (b : List Byte) : compareLoop b b = true := by
  induction b with
  | nil => rfl
  | cons x xs ih => simp [compareLoop, ih]

theorem CompareBytes_self (b : List Byte) : CompareBytes b b = true := by
  simp [CompareBytes, compareLoop_self]

theorem scan_succ (H : List Byte → List Byte) (data : List Byte) (blockLen : Int)
    (m : Int → List RCheckSum) (fuel : Nat) (init : Bool) (begin : Int) (rollSum : RollSum)
    (sameChunks : List RSameChunk) :
    scan H data blockLen m (fuel + 1) init begin rollSum sameChunks =
      if begin < len data then
        match scanSum data blockLen init begin rollSum with
        | .error e => .error e
        | .ok rs =>
          if (m (joinWeakSum rs.a rs.b)).length > 0 then
            match window data begin blockLen with
            | .error e => .error e
            | .ok w =>
              match firstStrong (calStrongSum H w) (m (joinWeakSum rs.a rs.b)) with
              | some c =>
                scan H data blockLen m fuel true (begin + blockLen) rs
                  (sameChunks ++ [{ start := begin, order := c.Order }])
              | none => scan H data blockLen m fuel false (begin + 1) rs sameChunks
          else scan H data blockLen m fuel false (begin + 1) rs sameChunks
      else .ok sameChunks := rfl

theorem scan_done (H : List Byte → List Byte) (data : List Byte) (blockLen : Int)
    (m : Int → List RCheckSum) (fuel : Nat) (init : Bool) (begin : Int) (rollSum : RollSum)
    (sameChunks : List RSameChunk) (h : ¬ begin < len data) :
    scan H data blockLen m fuel init begin rollSum sameChunks = .ok sameChunks := by
  unfold scan
  rw [if_neg h]

theorem firstStrong_head (s : List Byte) (c : RCheckSum) (cs : List RCheckSum) (h : c.SS = s) :
    firstStrong s (c :: cs) = some c := by
  simp [firstStrong, h, CompareBytes_self]

/-- Past its two early returns `CheckByCheckSum` is the scan followed by the
sort and the collecting walk. -/
theorem CheckByCheckSum_scan (H : List Byte → List Byte) (rf : RFile) (blockLen : Int)
    (totalSum : List Byte) (sums : List RCheckSum) (h0 : blockLen ≠ 0)
    (hb : rf.blockLen = blockLen) (ht : CompareBytes totalSum rf.totalSum = false) :
    rf.CheckByCheckSum H blockLen totalSum sums =
      match scan H rf.data blockLen (makeMap sums) rf.data.length true 0 (NewRollSum blockLen)
          [] with
      | .error e => .error e
      | .ok found =>
        .ok { same := false, reset := false, sameChunks := sortSame found,
              diffOrders := (collectDiff (sortSame found) 0 []).2 ++
                countUp (collectDiff (sortSame found) 0 []).1 (len sums) } := by
  unfold RFile.CheckByCheckSum
  rw [if_neg (by simp [hb, h0]), ht]
  simp [hb]


theorem makeMap_cons_pos (c : RCheckSum) (cs : List RCheckSum) (w : Int)
    (h : joinWeakSum c.A c.B = w) : makeMap (c :: cs) w = c :: makeMap cs w := by
  simp [makeMap, h]

theorem makeMap_cons_neg (c : RCheckSum) (cs : List RCheckSum) (w : Int)
    (h : joinWeakSum c.A c.B ≠ w) : makeMap (c :: cs) w = makeMap cs w := by
  simp [makeMap, h]

theorem firstStrong_nil (s : List Byte) : firstStrong s [] = none := rfl

theorem scan_hit (H : List Byte → List Byte) (data : List Byte) (blockLen : Int)
    (m : Int → List RCheckSum) (fuel : Nat) (init : Bool) (begin : Int) (rollSum rs : RollSum)
    (sameChunks : List RSameChunk) (w : List Byte) (c : RCheckSum)
    (h1 : begin < len data) (h2 : scanSum data blockLen init begin rollSum = .ok rs)
    (h3 : window data begin blockLen = .ok w)
    (h4 : firstStrong (calStrongSum H w) (m (joinWeakSum rs.a rs.b)) = some c) :
    scan H data blockLen m (fuel + 1) init begin rollSum sameChunks =
      scan H data blockLen m fuel true (begin + blockLen) rs
        (sameChunks ++ [{ start := begin, order := c.Order }]) := by
  have hne : (m (joinWeakSum rs.a rs.b)).length > 0 := by
    cases hm : m (joinWeakSum rs.a rs.b) with
    | nil => rw [hm, firstStrong_nil] at h4; cases h4
    | cons x xs => simp
  rw [scan_succ, if_pos h1, h2]
  simp only [if_pos hne, h3, h4]

theorem scan_miss_empty (H : List Byte → List Byte) (data : List Byte) (blockLen : Int)
    (m : Int → List RCheckSum) (fuel : Nat) (init : Bool) (begin : Int) (rollSum rs : RollSum)
    (sameChunks : List RSameChunk)
    (h1 : begin < len data) (h2 : scanSum data blockLen init begin rollSum = .ok rs)
    (h3 : m (joinWeakSum rs.a rs.b) = []) :
    scan H data blockLen m (fuel + 1) init begin rollSum sameChunks =
      scan H data blockLen m fuel false (begin + 1) rs sameChunks := by
  rw [scan_succ, if_pos h1, h2]
  simp [h3]

theorem scan_miss_strong (H : List Byte → List Byte) (data : List Byte) (blockLen : Int)
    (m : Int → List RCheckSum) (fuel : Nat) (init : Bool) (begin : Int) (rollSum rs : RollSum)
    (sameChunks : List RSameChunk) (w : List Byte)
    (h1 : begin < len data) (h2 : scanSum data blockLen init begin rollSum = .ok rs)
    (h3 : window data begin blockLen = .ok w)
    (h4 : firstStrong (calStrongSum H w) (m (joinWeakSum rs.a rs.b)) = none) :
    scan H data blockLen m (fuel + 1) init begin rollSum sameChunks =
      scan H data blockLen m fuel false (begin + 1) rs sameChunks := by
  rw [scan_succ, if_pos h1, h2]
  simp only [h3, h4]
  split_ifs <;> rfl

theorem scan_sum_error (H : List Byte → List Byte) (data : List Byte) (blockLen : Int)
    (m : Int → List RCheckSum) (fuel : Nat) (init : Bool) (begin : Int) (rollSum : RollSum)
    (sameChunks : List RSameChunk) (e : Fault)
    (h1 : begin < len data) (h2 : scanSum data blockLen init begin rollSum = .error e) :
    scan H data blockLen m (fuel + 1) init begin rollSum sameChunks = .error e := by
  rw [scan_succ, if_pos h1, h2]

theorem CheckByCheckSum_of_scan (H : List Byte → List Byte) (rf : RFile) (blockLen : Int)
    (totalSum : List Byte) (sums : List RCheckSum) (found : List RSameChunk)
    (h0 : blockLen ≠ 0) (hb : rf.blockLen = blockLen)
    (ht : CompareBytes totalSum rf.totalSum = false)
    (hs : scan H rf.data blockLen (makeMap sums) rf.data.length true 0 (NewRollSum blockLen) []
      = .ok found) :
    rf.CheckByCheckSum H blockLen totalSum sums =
      .ok { same := false, reset := false, sameChunks := sortSame found,
            diffOrders := (collectDiff (sortSame found) 0 []).2 ++
              countUp (collectDiff (sortSame found) 0 []).1 (len sums) } := by
  rw [CheckByCheckSum_scan H rf blockLen totalSum sums h0 hb ht, hs]

theorem CheckByCheckSum_of_scan_error (H : List Byte → List Byte) (rf : RFile) (blockLen : Int)
    (totalSum : List Byte) (sums : List RCheckSum) (e : Fault)
    (h0 : blockLen ≠ 0) (hb : rf.blockLen = blockLen)
    (ht : CompareBytes totalSum rf.totalSum = false)
    (hs : scan H rf.data blockLen (makeMap sums) rf.data.length true 0 (NewRollSum blockLen) []
      = .error e) :
    rf.CheckByCheckSum H blockLen totalSum sums = .error e := by
  rw [CheckByCheckSum_scan H rf blockLen totalSum sums h0 hb ht, hs]

theorem dup_map (H : List Byte → List Byte) : makeMap [⟨0, 3, 4, H [1, 2]⟩, ⟨1, 3, 4, H [1, 2]⟩, ⟨2, 3, 6, H [3, 0]⟩]
      (joinWeakSum 3 4) = [⟨0, 3, 4, H [1, 2]⟩, ⟨1, 3, 4, H [1, 2]⟩] := by
    rw [makeMap_cons_pos ⟨0, 3, 4, H [1, 2]⟩ _ (joinWeakSum 3 4) rfl,
      makeMap_cons_pos ⟨1, 3, 4, H [1, 2]⟩ _ (joinWeakSum 3 4) rfl,
      makeMap_cons_neg ⟨2, 3, 6, H [3, 0]⟩ _ (joinWeakSum 3 4)
        (show joinWeakSum 3 6 ≠ joinWeakSum 3 4 by decide)]
    rfl

theorem dup_first (H : List Byte → List Byte) :
    firstStrong (calStrongSum H [1, 2])
      (makeMap [⟨0, 3, 4, H [1, 2]⟩, ⟨1, 3, 4, H [1, 2]⟩, ⟨2, 3, 6, H [3, 0]⟩]
        (joinWeakSum (⟨3, 4, 1, 2⟩ : RollSum).a (⟨3, 4, 1, 2⟩ : RollSum).b))
      = some ⟨0, 3, 4, H [1, 2]⟩ := by
  show firstStrong (calStrongSum H [1, 2]) (makeMap _ (joinWeakSum 3 4)) = _
  rw [dup_map]
  exact firstStrong_head _ _ _ rfl

theorem dup_scan (H : List Byte → List Byte) :
    scan H [1, 2, 1, 2] 2
      (makeMap [⟨0, 3, 4, H [1, 2]⟩, ⟨1, 3, 4, H [1, 2]⟩, ⟨2, 3, 6, H [3, 0]⟩]) (3 + 1) true 0
      (NewRollSum 2) [] = .ok [⟨0, 0⟩, ⟨2, 0⟩] := by
  have hs0 : scanSum [1, 2, 1, 2] 2 true 0 (NewRollSum 2) = .ok ⟨3, 4, 1, 2⟩ := rfl
  have hs2 : scanSum [1, 2, 1, 2] 2 true (0 + 2) ⟨3, 4, 1, 2⟩ = .ok ⟨3, 4, 1, 2⟩ := rfl
  have hw0 : window [1, 2, 1, 2] 0 2 = .ok [1, 2] := rfl
  have hw2 : window [1, 2, 1, 2] (0 + 2) 2 = .ok [1, 2] := rfl
  rw [scan_hit H [1, 2, 1, 2] 2 _ 3 true 0 (NewRollSum 2) ⟨3, 4, 1, 2⟩ [] [1, 2]
      ⟨0, 3, 4, H [1, 2]⟩ (by decide) hs0 hw0 (dup_first H),
    scan_hit H [1, 2, 1, 2] 2 _ 2 true (0 + 2) ⟨3, 4, 1, 2⟩ ⟨3, 4, 1, 2⟩ _ [1, 2]
      ⟨0, 3, 4, H [1, 2]⟩ (by decide) hs2 hw2 (dup_first H),
    scan_done H [1, 2, 1, 2] 2 _ 2 true (0 + 2 + 2) ⟨3, 4, 1, 2⟩ _ (by decide)]
  rfl

/-- C2 (code defect). Source `[1,2,1,2]`, target `[1,2,1,2,3]`, block length 2:
the target table has the three orders 0, 1, 2; both source blocks are bound to
order 0, the collecting walk steps its cursor once for each of them, and the
result has `sameChunks` orders `{0}` and `diffOrders = [2]`: order 1 is in
neither. -/
theorem duplicate_order_drops_next (H : List Byte → List Byte) (ts : List Byte)
    (h : CompareBytes ts (H [1, 2, 1, 2]) = false) :
    calCheckSumByBlockLen H [1, 2, 1, 2, 3] 2
      = .ok [⟨0, 3, 4, H [1, 2]⟩, ⟨1, 3, 4, H [1, 2]⟩, ⟨2, 3, 6, H [3, 0]⟩] ∧
    RFile.CheckByCheckSum H ⟨[1, 2, 1, 2], H [1, 2, 1, 2], 2, []⟩ 2 ts
      [⟨0, 3, 4, H [1, 2]⟩, ⟨1, 3, 4, H [1, 2]⟩, ⟨2, 3, 6, H [3, 0]⟩]
      = .ok ⟨false, false, [⟨0, 0⟩, ⟨2, 0⟩], [2]⟩ := by
  refine ⟨rfl, ?_⟩
  rw [CheckByCheckSum_of_scan H ⟨[1, 2, 1, 2], H [1, 2, 1, 2], 2, []⟩ 2 ts _ [⟨0, 0⟩, ⟨2, 0⟩]
    (by decide) rfl h (dup_scan H)]
  rfl

/-- The duplicate-order run with the identity as digest. -/
theorem duplicate_order_drops_next_witness :
    calCheckSumByBlockLen id [1, 2, 1, 2, 3] 2
      = .ok [⟨0, 3, 4, id [1, 2]⟩, ⟨1, 3, 4, id [1, 2]⟩, ⟨2, 3, 6, id [3, 0]⟩] ∧
    RFile.CheckByCheckSum id ⟨[1, 2, 1, 2], id [1, 2, 1, 2], 2, []⟩ 2 [1, 2, 1, 2, 3]
      [⟨0, 3, 4, id [1, 2]⟩, ⟨1, 3, 4, id [1, 2]⟩, ⟨2, 3, 6, id [3, 0]⟩]
      = .ok ⟨false, false, [⟨0, 0⟩, ⟨2, 0⟩], [2]⟩ :=
  duplicate_order_drops_next id [1, 2, 1, 2, 3] (by decide)

/-- C5 (code defect). Source `[1,2]` at block length 2 against an empty table:
the first window has no candidate, the scan advances by one byte and
`Update(rf.data[1], rf.data[2])` indexes past the end of the buffer. -/
theorem scan_reads_past_end (H : List Byte → List Byte) (ts cs : List Byte)
    (h : CompareBytes ts cs = false) :
    RFile.CheckByCheckSum H ⟨[1, 2], cs, 2, []⟩ 2 ts [] = .error .indexOutOfRange := by
  rw [CheckByCheckSum_scan H ⟨[1, 2], cs, 2, []⟩ 2 ts [] (by decide) rfl h]
  rfl

/-- The run past the end with an empty stored total checksum. -/
theorem scan_reads_past_end_witness :
    RFile.CheckByCheckSum id ⟨[1, 2], [], 2, []⟩ 2 [0] [] = .error .indexOutOfRange :=
  scan_reads_past_end id [0] [] (by decide)

/-- A fault of the matcher is a fault of the negotiation. -/
theorem negotiate_check_error (H : List Byte → List Byte) (n : Nat) (server client : RFile)
    (e : Fault)
    (h : client.CheckByCheckSum H server.blockLen server.totalSum server.blockSum = .error e) :
    negotiate H (n + 1) server client = .error e := by
  simp [negotiate, RFile.GetProperties, h]

theorem insert_map (H : List Byte → List Byte) :
    makeMap [⟨0, 10, 11, H [1, 9]⟩, ⟨1, 2, 4, H [2, 0]⟩]
      (joinWeakSum (⟨3, 4, 1, 2⟩ : RollSum).a (⟨3, 4, 1, 2⟩ : RollSum).b) = [] := by
  show makeMap _ (joinWeakSum 3 4) = []
  rw [makeMap_cons_neg ⟨0, 10, 11, H [1, 9]⟩ _ (joinWeakSum 3 4)
      (show joinWeakSum 10 11 ≠ joinWeakSum 3 4 by decide),
    makeMap_cons_neg ⟨1, 2, 4, H [2, 0]⟩ _ (joinWeakSum 3 4)
      (show joinWeakSum 2 4 ≠ joinWeakSum 3 4 by decide)]
  rfl

theorem insert_scan (H : List Byte → List Byte) :
    scan H [1, 2] 2 (makeMap [⟨0, 10, 11, H [1, 9]⟩, ⟨1, 2, 4, H [2, 0]⟩]) (1 + 1) true 0
      (NewRollSum 2) [] = .error .indexOutOfRange := by
  have hs0 : scanSum [1, 2] 2 true 0 (NewRollSum 2) = .ok ⟨3, 4, 1, 2⟩ := rfl
  have hs1 : scanSum [1, 2] 2 false (0 + 1) ⟨3, 4, 1, 2⟩ = .error .indexOutOfRange := rfl
  rw [scan_miss_empty H [1, 2] 2 _ 1 true 0 (NewRollSum 2) ⟨3, 4, 1, 2⟩ [] (by decide) hs0
      (insert_map H),
    scan_sum_error H [1, 2] 2 _ 0 false (0 + 1) ⟨3, 4, 1, 2⟩ [] _ (by decide) hs1]

/-- C1 (code defect). `Test_Rsync` with source `[1,2]`, target `[1,9,2]` (the
fragment `[9]` inserted at offset 1) and block length 2: no window of the
source matches, and the scan faults on its one-byte advance, whenever the two
total checksums differ. -/
theorem roundtrip_faults (H : List Byte → List Byte) (n : Nat)
    (h : CompareBytes (H [1, 9, 2]) (H [1, 2]) = false) :
    Test_Rsync H (n + 1) 2 [1, 2] [1, 9, 2] = .error .indexOutOfRange := by
  have hf : testFiles H 2 [1, 2] [1, 9, 2]
      = .ok (⟨[1, 9, 2], H [1, 9, 2], 2, [⟨0, 10, 11, H [1, 9]⟩, ⟨1, 2, 4, H [2, 0]⟩]⟩,
          ⟨[1, 2], H [1, 2], 2, []⟩) := rfl
  unfold Test_Rsync
  rw [hf]
  exact negotiate_check_error H n _ _ _
    (CheckByCheckSum_of_scan_error H ⟨[1, 2], H [1, 2], 2, []⟩ 2 (H [1, 9, 2]) _ _
      (by decide) rfl h (insert_scan H))

/-- The faulting round trip with the identity as digest. -/
theorem roundtrip_faults_witness :
    Test_Rsync id (0 + 1) 2 [1, 2] [1, 9, 2] = .error .indexOutOfRange :=
  roundtrip_faults id 0 (by decide)

/-- C3 (code defect). Buffer `[1,2]` at block length 2 with the same chunk
`(start 0, order 0)` and the diff chunk `(order 1, [3])`: the orders cover 0
and 1 exactly once, yet at order 1 the index into `sameChunks` runs past its
end and the call faults instead of producing `[1,2,3]`. -/
theorem assemble_faults_on_trailing_diff (H : List Byte → List Byte) (ts : List Byte)
    (tbl : List RCheckSum) :
    RFile.AssembleByChunks H ⟨[1, 2], ts, 2, tbl⟩ 2 [⟨0, 0⟩] [⟨1, [3]⟩]
      = .error .indexOutOfRange := rfl

/-- C10 (code defect). With no same chunk and at least one diff chunk the
first pass of the assembling loop reads `sameChunks[0]` of an empty slice:
the call faults, whatever the orders of the diff chunks are. -/
theorem assemble_faults_without_same (H : List Byte → List Byte) (rf : RFile) (B : Int)
    (diffChunks : List RDiffChunk) (hB : 0 < B) (hrf : rf.blockLen = B)
    (hd : diffChunks ≠ []) :
    rf.AssembleByChunks H B [] diffChunks = .error .indexOutOfRange := by
  obtain ⟨n, hn⟩ : ∃ n, diffChunks.length = n + 1 :=
    ⟨diffChunks.length - 1, by
      have := List.length_pos.2 hd
      omega⟩
  unfold RFile.AssembleByChunks
  rw [if_neg (by omega), if_neg (by simp [hrf]), List.length_nil, Nat.zero_add, hn]
  have hcap : ¬ (((n + 1 : Nat) : Int) * B < 0) := by
    have : (0 : Int) ≤ ((n + 1 : Nat) : Int) * B := by positivity
    omega
  simp only [hcap, if_false]
  simp [assembleLoop, sortSame]

/-- The fault without same chunks at the input with order 0 missing. -/
theorem assemble_faults_without_same_witness :
    RFile.AssembleByChunks id ⟨[1, 2], [1, 2], 2, []⟩ 2 [] [⟨1, [9]⟩]
      = .error .indexOutOfRange :=
  assemble_faults_without_same id ⟨[1, 2], [1, 2], 2, []⟩ 2 [⟨1, [9]⟩] (by decide) rfl
    (by decide)

/-- C4 (code defect). A call of `AssembleByChunks` that returns true installs
the new buffer and rebuilds the block table from it, but leaves `totalSum` as
it was before the call. -/
theorem assemble_keeps_totalSum (H : List Byte → List Byte) (rf rf1 : RFile) (B : Int)
    (sameChunks : List RSameChunk) (diffChunks : List RDiffChunk)
    (h : rf.AssembleByChunks H B sameChunks diffChunks = .ok (rf1, true)) :
    rf1.totalSum = rf.totalSum ∧ rf1.blockLen = rf.blockLen ∧
      calCheckSumByBlockLen H rf1.data rf1.blockLen = .ok rf1.blockSum := by
  unfold RFile.AssembleByChunks at h
  dsimp only at h
  split_ifs at h with h1 h2 h3
  · simp at h
  · cases hl : assembleLoop rf.data B (sameChunks.length + diffChunks.length) 0
        (sortSame sameChunks) (sortDiff diffChunks) [] with
    | error e =>
      rw [hl] at h
      simp at h
    | ok o =>
      cases o with
      | none =>
        rw [hl] at h
        simp at h
      | some buf =>
        rw [hl] at h
        unfold RFile.calBlockSum at h
        dsimp only at h
        split_ifs at h with h4
        cases hc : calCheckSumByBlockLen H buf rf.blockLen with
        | error e =>
          rw [hc] at h
          simp at h
        | ok t =>
          rw [hc] at h
          simp only [Except.ok.injEq, Prod.mk.injEq, and_true] at h
          subst h
          exact ⟨rfl, rfl, hc⟩

/-- A successful reassembly whose new buffer `[9,1,2]` differs from the old
`[1,2]` while the total checksum stays that of `[1,2]`. -/
theorem assemble_keeps_totalSum_witness :
    RFile.AssembleByChunks id ⟨[1, 2], id [1, 2], 2, []⟩ 2 [⟨0, 1⟩] [⟨0, [9]⟩]
        = .ok (⟨[9, 1, 2], [1, 2], 2, [⟨0, 10, 19, [9, 1]⟩, ⟨1, 2, 4, [2, 0]⟩]⟩, true) ∧
      ((⟨[9, 1, 2], [1, 2], 2, [⟨0, 10, 19, [9, 1]⟩, ⟨1, 2, 4, [2, 0]⟩]⟩ : RFile).totalSum
          = (⟨[1, 2], id [1, 2], 2, []⟩ : RFile).totalSum ∧
        (⟨[9, 1, 2], [1, 2], 2, [⟨0, 10, 19, [9, 1]⟩, ⟨1, 2, 4, [2, 0]⟩]⟩ : RFile).blockLen
          = (⟨[1, 2], id [1, 2], 2, []⟩ : RFile).blockLen ∧
        calCheckSumByBlockLen id
            (⟨[9, 1, 2], [1, 2], 2, [⟨0, 10, 19, [9, 1]⟩, ⟨1, 2, 4, [2, 0]⟩]⟩ : RFile).data
            (⟨[9, 1, 2], [1, 2], 2, [⟨0, 10, 19, [9, 1]⟩, ⟨1, 2, 4, [2, 0]⟩]⟩ : RFile).blockLen
          = .ok (⟨[9, 1, 2], [1, 2], 2, [⟨0, 10, 19, [9, 1]⟩, ⟨1, 2, 4, [2, 0]⟩]⟩ : RFile).blockSum) :=
  ⟨rfl, assemble_keeps_totalSum id _ _ 2 [⟨0, 1⟩] [⟨0, [9]⟩] rfl⟩

/-! ## File state: creation, mutation, early returns -/

/-- C16. Block-length floor at creation: `NewRFile(n)` has block length 256
when `n < 64` and `n` otherwise, hence always at least 64; it is defined for
every `n`, and its buffer, total checksum and table are empty. -/
theorem NewRFile_floor (n : Int) :
    (n < 64 → (NewRFile n).blockLen = 256) ∧ (¬ n < 64 → (NewRFile n).blockLen = n) ∧
      64 ≤ (NewRFile n).blockLen ∧
      (NewRFile n).data = [] ∧ (NewRFile n).totalSum = [] ∧ (NewRFile n).blockSum = [] := by
  unfold NewRFile
  refine ⟨fun h => by simp [h], fun h => by simp [h], ?_, rfl, rfl, rfl⟩
  dsimp only
  split_ifs with h <;> omega

theorem compareLoop_eq (b1 : List Byte) :
    ∀ b2 : List Byte, b1.length = b2.length → (compareLoop b1 b2 = true ↔ b1 = b2) := by
  induction b1 with
  | nil =>
    intro b2 h
    cases b2 with
    | nil => simp [compareLoop]
    | cons y ys => simp at h
  | cons x xs ih =>
    intro b2 h
    cases b2 with
    | nil => simp at h
    | cons y ys =>
      have hl : xs.length = ys.length := by simpa using h
      by_cases hxy : x = y
      · simp [compareLoop, hxy, ih ys hl]
      · simp [compareLoop, hxy]

/-- `CompareBytes` decides equality of byte slices. -/
theorem CompareBytes_iff (b1 b2 : List Byte) : CompareBytes b1 b2 = true ↔ b1 = b2 := by
  unfold CompareBytes
  by_cases h : b1.length = b2.length
  · simp [h, compareLoop_eq b1 b2 h]
  · have hne : b1 ≠ b2 := fun he => h (by rw [he])
    simp [h, hne]

theorem CompareBytes_false_iff (b1 b2 : List Byte) : CompareBytes b1 b2 = false ↔ b1 ≠ b2 := by
  rw [Ne, ← CompareBytes_iff]
  simp

/-- C11. Atomicity of reassembly: whenever `AssembleByChunks` returns false
the file state after the call (buffer, total checksum, block length, block
table) is the state before it; and it returns false, with the state
untouched, whenever the supplied non-zero block length differs from the
configured non-zero block length. -/
theorem assemble_atomic (H : List Byte → List Byte) (rf : RFile) (B : Int)
    (sameChunks : List RSameChunk) (diffChunks : List RDiffChunk) :
    (∀ rf1, rf.AssembleByChunks H B sameChunks diffChunks = .ok (rf1, false) → rf1 = rf) ∧
    (rf.blockLen ≠ 0 → B ≠ 0 → rf.blockLen ≠ B →
      rf.AssembleByChunks H B sameChunks diffChunks = .ok (rf, false)) := by
  constructor
  · intro rf1 h
    unfold RFile.AssembleByChunks at h
    dsimp only at h
    split_ifs at h with h1 h2 h3
    · simp only [Except.ok.injEq, Prod.mk.injEq, and_true] at h
      exact h.symm
    · cases hl : assembleLoop rf.data B (sameChunks.length + diffChunks.length) 0
          (sortSame sameChunks) (sortDiff diffChunks) [] with
      | error e =>
        rw [hl] at h
        simp at h
      | ok o =>
        cases o with
        | none =>
          rw [hl] at h
          simp only [Except.ok.injEq, Prod.mk.injEq, and_true] at h
          exact h.symm
        | some buf =>
          rw [hl] at h
          dsimp only at h
          cases hc : RFile.calBlockSum H { rf with data := buf } with
          | error e =>
            rw [hc] at h
            simp at h
          | ok t =>
            rw [hc] at h
            simp at h
  · intro h0 hB hne
    unfold RFile.AssembleByChunks
    rw [if_neg (by simp [h0, hB]), if_pos hne]

/-- Atomicity at a missing order (both chunk lists non-empty, order 0 absent)
and at a block-length disagreement. -/
theorem assemble_atomic_witness :
    RFile.AssembleByChunks id ⟨[1, 2], [1, 2], 2, []⟩ 2 [⟨0, 5⟩] [⟨3, [9]⟩]
        = .ok (⟨[1, 2], [1, 2], 2, []⟩, false) ∧
      RFile.AssembleByChunks id ⟨[1, 2], [1, 2], 2, []⟩ 3 [⟨0, 0⟩] []
        = .ok (⟨[1, 2], [1, 2], 2, []⟩, false) :=
  ⟨rfl, (assemble_atomic id ⟨[1, 2], [1, 2], 2, []⟩ 3 [⟨0, 0⟩] []).2 (by decide) (by decide)
    (by decide)⟩

/-- What a successful `SetData` leaves in the state. -/
theorem SetData_ok (H : List Byte → List Byte) (f s : RFile) (buf : List Byte) (c : Bool)
    (h : f.SetData H buf c = .ok s) :
    s.data = buf ∧ s.totalSum = calStrongSum H buf ∧ s.blockLen = f.blockLen ∧
      (c = true → calCheckSumByBlockLen H buf f.blockLen = .ok s.blockSum) := by
  unfold RFile.SetData at h
  dsimp only at h
  split_ifs at h with hc
  · unfold RFile.calBlockSum at h
    dsimp only at h
    split_ifs at h with hz
    cases hcs : calCheckSumByBlockLen H buf f.blockLen with
    | error e =>
      rw [hcs] at h
      simp at h
    | ok t =>
      rw [hcs] at h
      simp only [Except.ok.injEq] at h
      subst h
      exact ⟨rfl, rfl, rfl, fun _ => rfl⟩
  · simp only [Except.ok.injEq] at h
    subst h
    exact ⟨rfl, rfl, rfl, fun hc1 => absurd hc1 hc⟩

/-- C12. Pre-scan outcome of the matcher, both block lengths non-zero: when
`totalSum` equals the source's total checksum the result is
`(true, false, nil, nil)` whatever the block lengths and the table are;
otherwise, when the block lengths differ, it is `(false, true, nil, nil)`.
Hence two files given the same buffer by `SetData` (the empty buffer
included) are reported identical. -/
theorem check_prescan (H : List Byte → List Byte) (rf : RFile) (B : Int) (totalSum : List Byte)
    (sums : List RCheckSum) (h0 : rf.blockLen ≠ 0) (hB : B ≠ 0) :
    (totalSum = rf.totalSum →
      rf.CheckByCheckSum H B totalSum sums = .ok ⟨true, false, [], []⟩) ∧
    (totalSum ≠ rf.totalSum → rf.blockLen ≠ B →
      rf.CheckByCheckSum H B totalSum sums = .ok ⟨false, true, [], []⟩) ∧
    (∀ (f1 f2 source target : RFile) (buf : List Byte) (c1 c2 : Bool),
      f1.SetData H buf c1 = .ok source → f2.SetData H buf c2 = .ok target →
      source.blockLen ≠ 0 → target.blockLen ≠ 0 →
      source.CheckByCheckSum H target.GetProperties.1 target.GetProperties.2.1
        target.GetProperties.2.2 = .ok ⟨true, false, [], []⟩) := by
  have key : ∀ (r : RFile) (b : Int) (ts : List Byte) (t : List RCheckSum),
      r.blockLen ≠ 0 → b ≠ 0 → ts = r.totalSum →
      r.CheckByCheckSum H b ts t = .ok ⟨true, false, [], []⟩ := by
    intro r b ts t hr hb h
    unfold RFile.CheckByCheckSum
    rw [if_neg (by simp [hr, hb]), (CompareBytes_iff _ _).2 h]
    rfl
  refine ⟨key rf B totalSum sums h0 hB, ?_, ?_⟩
  · intro h hne
    unfold RFile.CheckByCheckSum
    rw [if_neg (by simp [h0, hB]), (CompareBytes_false_iff _ _).2 h]
    simp [hne]
  · intro f1 f2 source target buf c1 c2 h1 h2 hs ht
    have e1 := (SetData_ok H f1 source buf c1 h1).2.1
    have e2 := (SetData_ok H f2 target buf c2 h2).2.1
    exact key source _ _ _ hs ht (by simp [RFile.GetProperties, e1, e2])

/-- The pre-scan outcomes on two-byte files; the last conjunct is two empty
files. -/
theorem check_prescan_witness :
    (([1, 2] : List Byte) = (⟨[1, 2], [1, 2], 2, []⟩ : RFile).totalSum →
      RFile.CheckByCheckSum id ⟨[1, 2], [1, 2], 2, []⟩ 3 [1, 2] []
        = .ok ⟨true, false, [], []⟩) ∧
    (([1, 2] : List Byte) ≠ (⟨[1, 2], [1, 2], 2, []⟩ : RFile).totalSum →
      (⟨[1, 2], [1, 2], 2, []⟩ : RFile).blockLen ≠ 3 →
      RFile.CheckByCheckSum id ⟨[1, 2], [1, 2], 2, []⟩ 3 [1, 2] []
        = .ok ⟨false, true, [], []⟩) ∧
    (∀ (f1 f2 source target : RFile) (buf : List Byte) (c1 c2 : Bool),
      f1.SetData id buf c1 = .ok source → f2.SetData id buf c2 = .ok target →
      source.blockLen ≠ 0 → target.blockLen ≠ 0 →
      source.CheckByCheckSum id target.GetProperties.1 target.GetProperties.2.1
        target.GetProperties.2.2 = .ok ⟨true, false, [], []⟩) :=
  check_prescan id ⟨[1, 2], [1, 2], 2, []⟩ 3 [1, 2] [] (by decide) (by decide)

/-- C15 (code defect). A negative block length is not rejected by
`SetBlockLen`: on a new file `SetBlockLen(-1)` returns the state with block
length `-1`, and on a file that holds data it stores `-1` and then faults on
a slice bound inside `calBlockSum`, not with the invalid-block-length fault. -/
theorem negative_blockLen_accepted :
    RFile.SetBlockLen id (NewRFile 256) (-1)
        = .ok { data := [], totalSum := [], blockLen := -1, blockSum := [] } ∧
      RFile.SetBlockLen id ⟨[1, 2], id [1, 2], 2, [⟨0, 3, 4, id [1, 2]⟩]⟩ (-1)
        = .error .indexOutOfRange :=
  ⟨rfl, rfl⟩

/-- The guard against a zero block length: `SetBlockLen(0)` raises the
invalid-block-length fault instead of returning a state, and
`CheckByCheckSum` and `AssembleByChunks` raise it whenever the supplied or
the configured block length is zero. -/
theorem zero_blockLen_faults (H : List Byte → List Byte) (rf : RFile) :
    rf.SetBlockLen H 0 = .error .invalidBlockLength ∧
    (∀ (B : Int) (totalSum : List Byte) (sums : List RCheckSum), rf.blockLen = 0 ∨ B = 0 →
      rf.CheckByCheckSum H B totalSum sums = .error .invalidBlockLength) ∧
    (∀ (B : Int) (sameChunks : List RSameChunk) (diffChunks : List RDiffChunk),
      rf.blockLen = 0 ∨ B = 0 →
      rf.AssembleByChunks H B sameChunks diffChunks = .error .invalidBlockLength) := by
  refine ⟨rfl, ?_, ?_⟩
  · intro B ts sums h
    unfold RFile.CheckByCheckSum
    rw [if_pos h]
  · intro B sc dc h
    unfold RFile.AssembleByChunks
    rw [if_pos h]

theorem calCheckSumByBlockLen_nil (H : List Byte → List Byte) (B : Int) :
    calCheckSumByBlockLen H [] B = .ok [] := by
  unfold calCheckSumByBlockLen calCheckSumLoop
  simp [len]

/-- C17. Consistency after recomputing mutations: for a file with block length
`>= 1`, `SetData(buf, true)` yields a consistent state with buffer `buf` and
the same block length; and for a consistent file and `l >= 1`, `SetBlockLen(l)`
yields a consistent state with block length `l` and the same buffer and total
checksum. -/
theorem mutation_consistent (H : List Byte → List Byte) (rf : RFile) :
    (∀ buf : List Byte, 1 ≤ rf.blockLen →
      ∃ s, rf.SetData H buf true = .ok s ∧ Consistent H s ∧ s.data = buf ∧
        s.blockLen = rf.blockLen) ∧
    (∀ l : Int, Consistent H rf → 1 ≤ l →
      ∃ s, rf.SetBlockLen H l = .ok s ∧ Consistent H s ∧ s.blockLen = l ∧
        s.data = rf.data ∧ s.totalSum = rf.totalSum) := by
  constructor
  · intro buf hB
    obtain ⟨b, hb, hb1⟩ : ∃ b : Nat, rf.blockLen = (b : Int) ∧ 1 ≤ b :=
      ⟨rf.blockLen.toNat, by omega, by omega⟩
    have ht := calCheckSumByBlockLen_eq H buf b hb1
    refine ⟨⟨buf, calStrongSum H buf, rf.blockLen,
        (List.range (blockCount buf.length b)).map (blockEntry H buf b)⟩,
      ?_, ⟨rfl, ?_⟩, rfl, rfl⟩
    · unfold RFile.SetData RFile.calBlockSum
      dsimp only
      rw [if_pos rfl, if_neg (by omega), hb, ht]
    · dsimp only
      rw [hb, ht]
  · intro l hc hl
    obtain ⟨b, hb, hb1⟩ : ∃ b : Nat, l = (b : Int) ∧ 1 ≤ b := ⟨l.toNat, by omega, by omega⟩
    have ht := calCheckSumByBlockLen_eq H rf.data b hb1
    unfold RFile.SetBlockLen
    rw [if_neg (by omega)]
    by_cases hne : rf.blockLen ≠ l
    · rw [if_pos hne]
      dsimp only
      by_cases hd : len rf.data > 0
      · rw [if_pos hd]
        unfold RFile.calBlockSum
        dsimp only
        rw [if_neg (by omega), hb, ht]
        exact ⟨_, rfl, ⟨hc.1, by dsimp only; rw [ht]⟩, rfl, rfl, rfl⟩
      · rw [if_neg hd]
        have hnil : rf.data = [] := by
          cases hdd : rf.data with
          | nil => rfl
          | cons x xs =>
            rw [hdd] at hd
            simp [len] at hd
        have hs : rf.blockSum = [] := by
          have h2 := hc.2
          rw [hnil, calCheckSumByBlockLen_nil] at h2
          simpa using h2.symm
        refine ⟨_, rfl, ⟨hc.1, ?_⟩, rfl, rfl, rfl⟩
        dsimp only
        rw [hnil, hs, calCheckSumByBlockLen_nil]
    · rw [if_neg hne]
      have he : rf.blockLen = l := by
        by_contra h
        exact hne h
      exact ⟨rf, rfl, hc, he, rfl, rfl⟩

/-- Consistency of `SetData` and `SetBlockLen` on a new file at block length
2. -/
theorem mutation_consistent_witness :
    (∀ buf : List Byte, 1 ≤ (⟨[], id [], 2, []⟩ : RFile).blockLen →
      ∃ s, RFile.SetData id ⟨[], id [], 2, []⟩ buf true = .ok s ∧ Consistent id s ∧
        s.data = buf ∧ s.blockLen = (⟨[], id [], 2, []⟩ : RFile).blockLen) ∧
    (∀ l : Int, Consistent id ⟨[], id [], 2, []⟩ → 1 ≤ l →
      ∃ s, RFile.SetBlockLen id ⟨[], id [], 2, []⟩ l = .ok s ∧ Consistent id s ∧
        s.blockLen = l ∧ s.data = (⟨[], id [], 2, []⟩ : RFile).data ∧
        s.totalSum = (⟨[], id [], 2, []⟩ : RFile).totalSum) :=
  mutation_consistent id ⟨[], id [], 2, []⟩

/-- C13 (counterexample). The order `-1` satisfies `order * B <= len(buffer)`
at block length 1, yet `GetDiffChunks([-1])` faults on `rf.data[-1:]`. -/
theorem getDiffChunks_negative_order :
    RFile.GetDiffChunks ⟨[1, 2], [], 1, []⟩ [-1] = .error .indexOutOfRange := rfl

/-- The natural bytes of block `o` as `GetDiffChunks` cuts them. -/
theorem cut_block (buf : List Byte) (b o : Nat) :
    cutByBlockLen (buf.drop (o * b)) (b : Int) = .ok (naturalBlock buf b o) := by
  unfold cutByBlockLen naturalBlock
  by_cases h : len (buf.drop (o * b)) < (b : Int)
  · have h1 : buf.length < (o + 1) * b := by
      simp only [len, List.length_drop] at h
      have : (o + 1) * b = o * b + b := by ring
      omega
    rw [if_pos h, min_eq_right (le_of_lt h1), List.take_length]
  · have h1 : (o + 1) * b ≤ buf.length := by
      simp only [len, List.length_drop] at h
      have : (o + 1) * b = o * b + b := by ring
      have h0 : b = 0 → o * b = 0 := fun hz => by simp [hz]
      omega
    have h2 : b ≤ buf.length - o * b := by
      simp only [len, List.length_drop] at h
      omega
    rw [if_neg h, min_eq_left h1, List.drop_take]
    have h3 : (o + 1) * b - o * b = b := by
      have : (o + 1) * b = o * b + b := by ring
      omega
    simp [sliceTo, len, h2, h3]

/-- C13 (amended). DiffExtractor: for a file with block length `B >= 1` and
orders each satisfying `0 <= order` and `order * B <= len(buffer)`,
`GetDiffChunks` returns the file's block length and total checksum and, for
each requested order in sequence, the chunk with that order and the unpadded
bytes `buffer[order*B .. min((order+1)*B, len(buffer)))`.  The call is a
function of the state, which it does not change. -/
theorem getDiffChunks_spec (rf : RFile) (orders : List Int) (hB : 1 ≤ rf.blockLen)
    (ho : ∀ o ∈ orders, 0 ≤ o ∧ o * rf.blockLen ≤ len rf.data) :
    rf.GetDiffChunks orders = .ok (rf.blockLen, rf.totalSum,
      orders.map (fun o => { Order := o, Data := naturalBlock rf.data rf.blockLen.toNat o.toNat })) := by
  obtain ⟨b, hb, hb1⟩ : ∃ b : Nat, rf.blockLen = (b : Int) ∧ 1 ≤ b :=
    ⟨rf.blockLen.toNat, by omega, by omega⟩
  have hloop : diffChunksLoop rf.data rf.blockLen orders = .ok
      (orders.map (fun o => { Order := o, Data := naturalBlock rf.data rf.blockLen.toNat o.toNat })) := by
    induction orders with
    | nil => rfl
    | cons o rest ih =>
      obtain ⟨h0, h1⟩ := ho o (List.mem_cons_self _ _)
      obtain ⟨n, rfl⟩ : ∃ n : Nat, o = (n : Int) := ⟨o.toNat, by omega⟩
      have hle : n * b ≤ rf.data.length := by
        rw [hb] at h1
        simp only [len] at h1
        exact_mod_cast h1
      have hs : sliceFrom rf.data ((n : Int) * rf.blockLen) = .ok (rf.data.drop (n * b)) := by
        rw [hb, ← Nat.cast_mul]
        exact sliceFrom_ok rf.data (n * b) hle
      have hcut : cutByBlockLen (rf.data.drop (n * b)) rf.blockLen
          = .ok (naturalBlock rf.data b n) := by
        rw [hb]
        exact cut_block rf.data b n
      unfold diffChunksLoop
      rw [hs]
      dsimp only
      rw [hcut]
      dsimp only
      rw [ih (fun o ho1 => ho o (List.mem_cons_of_mem _ ho1))]
      simp [hb]
  unfold RFile.GetDiffChunks
  rw [if_neg (by omega), hloop]

/-- The chunks of orders 1 and 0 of a three-byte buffer at block length 2. -/
theorem getDiffChunks_spec_witness :
    RFile.GetDiffChunks ⟨[1, 2, 3], [7], 2, []⟩ [1, 0] = .ok ((⟨[1, 2, 3], [7], 2, []⟩ : RFile).blockLen,
      (⟨[1, 2, 3], [7], 2, []⟩ : RFile).totalSum,
      ([1, 0] : List Int).map (fun o => ⟨o,
        naturalBlock (⟨[1, 2, 3], [7], 2, []⟩ : RFile).data
          (⟨[1, 2, 3], [7], 2, []⟩ : RFile).blockLen.toNat o.toNat⟩)) :=
  getDiffChunks_spec ⟨[1, 2, 3], [7], 2, []⟩ [1, 0] (by decide) (by decide)

/-! ## The scan: windows and the rolling sum -/

theorem window_nat (data : List Byte) (k B : Nat) (hk : k ≤ data.length) :
    window data (k : Int) (B : Int) = .ok (paddedWindow data k B) := by
  unfold window
  rw [sliceFrom_ok data k hk]
  dsimp only
  unfold fillBlankByBlockLen paddedWindow
  by_cases h : len (data.drop k) < (B : Int)
  · have h1 : data.length - k ≤ B := by
      simp only [len, List.length_drop] at h
      omega
    rw [if_pos h, List.take_of_length_le (by simpa using h1)]
    simp only [len, List.length_drop]
    congr 3
    omega
  · have h1 : B ≤ data.length - k := by
      simp only [len, List.length_drop] at h
      omega
    rw [if_neg h]
    simp [sliceTo, len, h1]

theorem paddedWindow_full (data : List Byte) (k B : Nat) (h : k + B ≤ data.length) :
    paddedWindow data k B = (data.drop k).take B := by
  unfold paddedWindow
  rw [show B - (data.length - k) = 0 by omega]
  simp

theorem paddedWindow_length (data : List Byte) (k B : Nat) (hk : k ≤ data.length) :
    (paddedWindow data k B).length = B := by
  unfold paddedWindow
  simp only [List.length_append, List.length_take, List.length_drop, List.length_replicate]
  omega

theorem paddedWindow_head (data : List Byte) (k B : Nat) (hk : k < data.length) (hB : 1 ≤ B) :
    ∃ t, paddedWindow data k B = data.getD k 0 :: t := by
  unfold paddedWindow
  obtain ⟨n, rfl⟩ : ∃ n, B = n + 1 := ⟨B - 1, by omega⟩
  rw [List.drop_eq_getElem_cons hk, List.take_succ_cons]
  refine ⟨(data.drop (k + 1)).take n ++ List.replicate (n + 1 - (data.length - k)) (0 : Byte), ?_⟩
  simp [List.getD_eq_getElem?_getD, List.getElem?_eq_getElem hk]

theorem uint16_lt (x : Int) : uint16 x < 65536 := by
  unfold uint16
  omega

theorem calWeakSum_lt (w : List Byte) : (calWeakSum w).1 < 65536 ∧ (calWeakSum w).2 < 65536 := by
  rw [calWeakSum_eq]
  exact ⟨uint16_lt _, uint16_lt _⟩

/-- Re-seeding the rolling sum at an offset inside the buffer makes it hold
the sums of the window there; this needs a block length of at least one. -/
theorem scanSum_init (data : List Byte) (B begin : Int) (rs rs1 : RollSum)
    (h0 : 0 ≤ begin) (h1 : begin < len data)
    (h : scanSum data B true begin rs = .ok rs1) : Rolled data B begin rs1 := by
  obtain ⟨k, rfl⟩ : ∃ k : Nat, begin = (k : Int) := ⟨begin.toNat, by omega⟩
  have hk : k < data.length := by
    simp only [len] at h1
    omega
  have hB : 1 ≤ B := by
    by_contra hc
    unfold scanSum window at h
    rw [if_pos rfl, sliceFrom_ok data k (le_of_lt hk)] at h
    dsimp only at h
    unfold fillBlankByBlockLen at h
    rw [if_neg (by simp only [len, List.length_drop]; omega)] at h
    unfold sliceTo at h
    by_cases hz : B = 0
    · subst hz
      simp [RollSum.InitByBuf, index, len] at h
    · rw [if_neg (by omega)] at h
      simp at h
  obtain ⟨b, rfl⟩ : ∃ b : Nat, B = (b : Int) := ⟨B.toNat, by omega⟩
  have hb : 1 ≤ b := by omega
  obtain ⟨t, ht⟩ := paddedWindow_head data k b hk hb
  have hlen := paddedWindow_length data k b (le_of_lt hk)
  unfold scanSum at h
  rw [if_pos rfl, window_nat data k b (le_of_lt hk)] at h
  dsimp only at h
  have hidx : index (paddedWindow data k b) 0 = .ok (data.getD k 0) := by
    rw [ht]
    simp [index, len]
  unfold RollSum.InitByBuf at h
  rw [hidx] at h
  simp only [Except.ok.injEq] at h
  subst h
  refine ⟨by omega, by omega, h1, ?_, ?_, ?_, ?_⟩
  · simp
  · simp
  · simp
  · simp [len, hlen]

/-- Rolling the sum by one byte moves it from the window at `begin - 1` to the
window at `begin`. -/
theorem scanSum_roll (data : List Byte) (B begin : Int) (rs rs1 : RollSum)
    (hR : Rolled data B (begin - 1) rs)
    (h : scanSum data B false begin rs = .ok rs1) :
    Rolled data B begin rs1 ∧ begin + B ≤ len data := by
  obtain ⟨hB, hp0, hp1, ha, hb, hx, hl⟩ := hR
  obtain ⟨k, hk⟩ : ∃ k : Nat, begin - 1 = (k : Int) := ⟨(begin - 1).toNat, by omega⟩
  obtain ⟨n, hn⟩ : ∃ n : Nat, B = ((n + 1 : Nat) : Int) := ⟨(B - 1).toNat, by omega⟩
  have hbegin : begin = ((k + 1 : Nat) : Int) := by omega
  subst hbegin
  subst hn
  unfold scanSum at h
  simp only [Bool.false_eq_true, if_false] at h
  cases hix : index data ((k + 1 : Nat) : Int) with
  | error e =>
    rw [hix] at h
    simp at h
  | ok x =>
    rw [hix] at h
    dsimp only at h
    cases hiy : index data (((k + 1 : Nat) : Int) + ((n + 1 : Nat) : Int) - 1) with
    | error e =>
      rw [hiy] at h
      simp at h
    | ok y =>
      rw [hiy] at h
      simp only [Except.ok.injEq] at h
      have hlt : k + n + 1 < data.length := by
        unfold index at hiy
        split_ifs at hiy with hc
        simp only [len] at hc
        omega
      have hx1 : x = data.getD (k + 1) 0 := by
        rw [index_ok data (k + 1) (by omega)] at hix
        simpa using hix.symm
      have hy1 : y = data.getD (k + n + 1) 0 := by
        have he : ((k + 1 : Nat) : Int) + ((n + 1 : Nat) : Int) - 1 = ((k + n + 1 : Nat) : Int) := by
          push_cast
          ring
        rw [he, index_ok data (k + n + 1) hlt] at hiy
        simpa using hiy.symm
      have hk0 : ((k : Int)).toNat = k := by simp
      have hk1 : (((k + 1 : Nat) : Int)).toNat = k + 1 := by simp
      have hn1 : (((n + 1 : Nat) : Int)).toNat = n + 1 := by simp
      rw [hk] at ha hb hx
      rw [hk0, hn1, paddedWindow_full data k (n + 1) (by omega), window_head data n k (by omega),
        calWeakSum_eq] at ha hb
      rw [hk0] at hx
      have hl1 : rs.chunkLen = len (data.getD k 0 :: (data.drop (k + 1)).take n) := by
        rw [hl]
        have : ((data.drop (k + 1)).take n).length = n := by
          simp only [List.length_take, List.length_drop]
          omega
        simp [len, this]
      have hu := update_window rs (data.getD k 0) x y _ ha hb hx hl1
      refine ⟨⟨by omega, by omega, by simp only [len]; omega, ?_, ?_, ?_, ?_⟩,
        by simp only [len]; omega⟩
      · rw [hk1, hn1, paddedWindow_full data (k + 1) (n + 1) (by omega), window_last data n k hlt,
          calWeakSum_eq, ← h, ← hy1]
        exact hu.1
      · rw [hk1, hn1, paddedWindow_full data (k + 1) (n + 1) (by omega), window_last data n k hlt,
          calWeakSum_eq, ← h, ← hy1]
        exact hu.2.1
      · rw [hk1, ← h, ← hx1]
        exact hu.2.2.1
      · rw [← h]
        exact hl

theorem index_error (buf : List Byte) (i : Int) (e : Fault) (h : index buf i = .error e) :
    e = .indexOutOfRange := by
  unfold index at h
  split_ifs at h
  simp only [Except.error.injEq] at h
  exact h.symm

theorem sliceFrom_error (buf : List Byte) (i : Int) (e : Fault)
    (h : sliceFrom buf i = .error e) : e = .indexOutOfRange := by
  unfold sliceFrom at h
  split_ifs at h
  simp only [Except.error.injEq] at h
  exact h.symm

theorem fillBlank_error (buf : List Byte) (B : Int) (e : Fault)
    (h : fillBlankByBlockLen buf B = .error e) : e = .indexOutOfRange := by
  unfold fillBlankByBlockLen sliceTo at h
  split_ifs at h
  simp only [Except.error.injEq] at h
  exact h.symm

theorem window_error (data : List Byte) (begin B : Int) (e : Fault)
    (h : window data begin B = .error e) : e = .indexOutOfRange := by
  unfold window at h
  cases hs : sliceFrom data begin with
  | error e1 =>
    rw [hs] at h
    simp only [Except.error.injEq] at h
    rw [← h]
    exact sliceFrom_error data begin e1 hs
  | ok rest =>
    rw [hs] at h
    exact fillBlank_error rest B e h

/-- The first statement of the scan body faults only on an index. -/
theorem scanSum_error (data : List Byte) (B : Int) (init : Bool) (begin : Int) (rs : RollSum)
    (e : Fault) (h : scanSum data B init begin rs = .error e) : e = .indexOutOfRange := by
  unfold scanSum at h
  cases init with
  | true =>
    rw [if_pos rfl] at h
    cases hw : window data begin B with
    | error e1 =>
      rw [hw] at h
      simp only [Except.error.injEq] at h
      rw [← h]
      exact window_error data begin B e1 hw
    | ok w =>
      rw [hw] at h
      dsimp only at h
      unfold RollSum.InitByBuf at h
      cases hi : index w 0 with
      | error e1 =>
        rw [hi] at h
        simp only [Except.error.injEq] at h
        rw [← h]
        exact index_error w 0 e1 hi
      | ok x =>
        rw [hi] at h
        simp at h
  | false =>
    simp only [Bool.false_eq_true, if_false] at h
    cases hi : index data begin with
    | error e1 =>
      rw [hi] at h
      simp only [Except.error.injEq] at h
      rw [← h]
      exact index_error data begin e1 hi
    | ok x =>
      rw [hi] at h
      dsimp only at h
      cases hj : index data (begin + B - 1) with
      | error e1 =>
        rw [hj] at h
        simp only [Except.error.injEq] at h
        rw [← h]
        exact index_error data _ e1 hj
      | ok y =>
        rw [hj] at h
        simp at h

theorem Rolled.window {data : List Byte} {B pos : Int} {rs : RollSum}
    (hR : Rolled data B pos rs) :
    window data pos B = .ok (paddedWindow data pos.toNat B.toNat) := by
  obtain ⟨hB, hp0, hp1, -⟩ := hR
  have h := window_nat data pos.toNat B.toNat (by simp only [len] at hp1; omega)
  rwa [Int.toNat_of_nonneg hp0, Int.toNat_of_nonneg (by omega)] at h

/-- One pass of the scan body at an offset inside the buffer: the rolling sum
faults, or the window is accepted and the scan jumps a block, or it is
rejected and the scan advances one byte. -/
theorem scan_step (H : List Byte → List Byte) (data : List Byte) (B : Int)
    (m : Int → List RCheckSum) (fuel : Nat) (init : Bool) (begin : Int) (rs : RollSum)
    (acc : List RSameChunk) (h0 : 0 ≤ begin) (h1 : begin < len data)
    (hR : init = false → Rolled data B (begin - 1) rs) :
    (∃ e, scan H data B m (fuel + 1) init begin rs acc = .error e ∧ e ≠ .fuel) ∨
    (∃ rs1 c, Rolled data B begin rs1 ∧
      firstStrong (calStrongSum H (paddedWindow data begin.toNat B.toNat))
        (m (joinWeakSum (calWeakSum (paddedWindow data begin.toNat B.toNat)).1
          (calWeakSum (paddedWindow data begin.toNat B.toNat)).2)) = some c ∧
      scan H data B m (fuel + 1) init begin rs acc =
        scan H data B m fuel true (begin + B) rs1 (acc ++ [{ start := begin, order := c.Order }])) ∨
    (∃ rs1, Rolled data B begin rs1 ∧
      scan H data B m (fuel + 1) init begin rs acc =
        scan H data B m fuel false (begin + 1) rs1 acc) := by
  cases hs : scanSum data B init begin rs with
  | error e =>
    refine Or.inl ⟨e, scan_sum_error H data B m fuel init begin rs acc e h1 hs, ?_⟩
    rw [scanSum_error data B init begin rs e hs]
    decide
  | ok rs1 =>
    have hR1 : Rolled data B begin rs1 := by
      cases init with
      | true => exact scanSum_init data B begin rs rs1 h0 h1 hs
      | false => exact (scanSum_roll data B begin rs rs1 (hR rfl) hs).1
    have hw := hR1.window
    obtain ⟨-, -, -, ha, hb, -⟩ := id hR1
    cases hm : m (joinWeakSum rs1.a rs1.b) with
    | nil =>
      exact Or.inr (Or.inr ⟨rs1, hR1,
        scan_miss_empty H data B m fuel init begin rs rs1 acc h1 hs hm⟩)
    | cons x xs =>
      cases hf : firstStrong (calStrongSum H (paddedWindow data begin.toNat B.toNat))
          (m (joinWeakSum rs1.a rs1.b)) with
      | none =>
        exact Or.inr (Or.inr ⟨rs1, hR1,
          scan_miss_strong H data B m fuel init begin rs rs1 acc _ h1 hs hw hf⟩)
      | some c =>
        refine Or.inr (Or.inl ⟨rs1, c, hR1, ?_,
          scan_hit H data B m fuel init begin rs rs1 acc _ c h1 hs hw hf⟩)
        rw [← ha, ← hb]
        exact hf

/-- Invariant of the scan: the chunks it adds were each accepted at an offset
not before `begin`, and consecutive ones start at least a block apart. -/
theorem scan_inv (H : List Byte → List Byte) (data : List Byte) (B : Int)
    (m : Int → List RCheckSum) :
    ∀ (fuel : Nat) (init : Bool) (begin : Int) (rs : RollSum) (acc found : List RSameChunk),
      0 ≤ begin → (init = false → Rolled data B (begin - 1) rs) →
      scan H data B m fuel init begin rs acc = .ok found →
      ∃ new, found = acc ++ new ∧
        (∀ c ∈ new, begin ≤ c.start ∧ Accepted H data B m c) ∧
        new.Pairwise (fun x y => x.start + B ≤ y.start) := by
  intro fuel
  induction fuel with
  | zero =>
    intro init begin rs acc found h0 hR h
    unfold scan at h
    split_ifs at h with h1
    simp only [Except.ok.injEq] at h
    exact ⟨[], by simp [h], by simp, List.Pairwise.nil⟩
  | succ fuel ih =>
    intro init begin rs acc found h0 hR h
    by_cases h1 : begin < len data
    · rcases scan_step H data B m fuel init begin rs acc h0 h1 hR with
        ⟨e, he, -⟩ | ⟨rs1, c, hR1, hf, hstep⟩ | ⟨rs1, hR1, hstep⟩
      · rw [he] at h
        simp at h
      · rw [hstep] at h
        have hB : 1 ≤ B := hR1.1
        obtain ⟨new, hnew, hacc, hpw⟩ :=
          ih true (begin + B) rs1 _ found (by omega) (fun hc => by simp at hc) h
        refine ⟨{ start := begin, order := c.Order } :: new, by simp [hnew], ?_, ?_⟩
        · intro c1 hc1
          rcases List.mem_cons.1 hc1 with rfl | hmem
          · exact ⟨le_refl _, h0, h1, hB, c, hf, rfl⟩
          · obtain ⟨hle, hacc1⟩ := hacc c1 hmem
            exact ⟨by omega, hacc1⟩
        · refine List.Pairwise.cons ?_ hpw
          intro c1 hc1
          exact (hacc c1 hc1).1
      · rw [hstep] at h
        obtain ⟨new, hnew, hacc, hpw⟩ :=
          ih false (begin + 1) rs1 acc found (by omega)
            (fun _ => by rwa [show begin + 1 - 1 = begin by omega]) h
        refine ⟨new, hnew, ?_, hpw⟩
        intro c1 hc1
        obtain ⟨hle, hacc1⟩ := hacc c1 hc1
        exact ⟨by omega, hacc1⟩
    · rw [scan_done H data B m (fuel + 1) init begin rs acc h1] at h
      simp only [Except.ok.injEq] at h
      exact ⟨[], by simp [h], by simp, List.Pairwise.nil⟩

/-- The iteration budget of the scan model is never the reason it stops: with
at least `len(data) - begin` passes allowed the scan does not run out. -/
theorem scan_ne_fuel (H : List Byte → List Byte) (data : List Byte) (B : Int)
    (m : Int → List RCheckSum) :
    ∀ (fuel : Nat) (init : Bool) (begin : Int) (rs : RollSum) (acc : List RSameChunk),
      0 ≤ begin → (init = false → Rolled data B (begin - 1) rs) →
      len data - begin ≤ (fuel : Int) →
      scan H data B m fuel init begin rs acc ≠ .error .fuel := by
  intro fuel
  induction fuel with
  | zero =>
    intro init begin rs acc h0 hR hf
    rw [scan_done H data B m 0 init begin rs acc (by simp at hf; omega)]
    simp
  | succ fuel ih =>
    intro init begin rs acc h0 hR hf
    by_cases h1 : begin < len data
    · rcases scan_step H data B m fuel init begin rs acc h0 h1 hR with
        ⟨e, he, hne⟩ | ⟨rs1, c, hR1, -, hstep⟩ | ⟨rs1, hR1, hstep⟩
      · rw [he]
        simpa using hne
      · rw [hstep]
        have hB : 1 ≤ B := hR1.1
        exact ih true (begin + B) rs1 _ (by omega) (fun hc => by simp at hc)
          (by push_cast at hf; omega)
      · rw [hstep]
        exact ih false (begin + 1) rs1 acc (by omega)
          (fun _ => by rwa [show begin + 1 - 1 = begin by omega]) (by push_cast at hf; omega)
    · rw [scan_done H data B m (fuel + 1) init begin rs acc h1]
      simp

/-! ## The results of the matcher -/

/-- The three ways `CheckByCheckSum` returns: identical, reset, or the scan
followed by the sort and the collecting walk. -/
theorem CheckByCheckSum_cases (H : List Byte → List Byte) (rf : RFile) (B : Int)
    (totalSum : List Byte) (sums : List RCheckSum) (r : CheckResult)
    (h : rf.CheckByCheckSum H B totalSum sums = .ok r) :
    r = ⟨true, false, [], []⟩ ∨ r = ⟨false, true, [], []⟩ ∨
    ∃ found, scan H rf.data B (makeMap sums) rf.data.length true 0 (NewRollSum B) [] = .ok found ∧
      r = ⟨false, false, sortSame found,
        (collectDiff (sortSame found) 0 []).2 ++
          countUp (collectDiff (sortSame found) 0 []).1 (len sums)⟩ := by
  unfold RFile.CheckByCheckSum at h
  split_ifs at h with h1 h2 h3
  · simp only [Except.ok.injEq] at h
    exact Or.inl h.symm
  · simp only [Except.ok.injEq] at h
    exact Or.inr (Or.inl h.symm)
  · cases hs : scan H rf.data B (makeMap sums) rf.data.length true 0 (NewRollSum B) [] with
    | error e =>
      rw [hs] at h
      simp at h
    | ok found =>
      rw [hs] at h
      simp only [Except.ok.injEq] at h
      exact Or.inr (Or.inr ⟨found, rfl, h.symm⟩)

/-- The matcher never stops for lack of iterations in its model. -/
theorem CheckByCheckSum_ne_fuel (H : List Byte → List Byte) (rf : RFile) (B : Int)
    (totalSum : List Byte) (sums : List RCheckSum) :
    rf.CheckByCheckSum H B totalSum sums ≠ .error .fuel := by
  unfold RFile.CheckByCheckSum
  split_ifs with h1 h2 h3
  · simp
  · simp
  · simp
  · cases hs : scan H rf.data B (makeMap sums) rf.data.length true 0 (NewRollSum B) [] with
    | error e =>
      have hne := scan_ne_fuel H rf.data B (makeMap sums) rf.data.length true 0 (NewRollSum B) []
        (le_refl _) (fun hc => by simp at hc) (by simp [len])
      rw [hs] at hne
      simpa using hne
    | ok found => simp

theorem mem_countUp (o n x : Int) : x ∈ countUp o n ↔ o ≤ x ∧ x < n := by
  unfold countUp
  rw [List.mem_map]
  constructor
  · rintro ⟨k, hk, rfl⟩
    have h1 := Int.lt_toNat.1 (List.mem_range.1 hk)
    omega
  · rintro ⟨h1, h2⟩
    refine ⟨(x - o).toNat, List.mem_range.2 (Int.lt_toNat.2 ?_), ?_⟩
    · rw [Int.toNat_of_nonneg (by omega)]
      omega
    · rw [Int.toNat_of_nonneg (by omega)]
      omega

theorem pairwise_countUp (o n : Int) : (countUp o n).Pairwise (· < ·) := by
  unfold countUp
  refine List.Pairwise.map _ ?_ (List.pairwise_lt_range _)
  intro a b hab
  show o + (a : Int) < o + (b : Int)
  omega

/-- The collecting walk over chunks sorted by order: the orders it appends are
ascending, lie between the cursor before and the cursor after, are below some
chunk order, and are the order of no chunk; every chunk order is below the
final cursor. -/
theorem collectDiff_spec :
    ∀ (S : List RSameChunk) (o : Int) (acc : List Int),
      S.Pairwise (fun x y => x.order ≤ y.order) →
      ∃ D o1, collectDiff S o acc = (o1, acc ++ D) ∧ o ≤ o1 ∧ D.Pairwise (· < ·) ∧
        (∀ x ∈ D, o ≤ x ∧ x < o1) ∧ (∀ x ∈ D, ∃ c ∈ S, x < c.order) ∧
        (∀ x ∈ D, ∀ c ∈ S, c.order ≠ x) ∧ (∀ c ∈ S, c.order < o1) := by
  intro S
  induction S with
  | nil =>
    intro o acc _
    exact ⟨[], o, by simp [collectDiff], le_refl _, List.Pairwise.nil, by simp, by simp, by simp,
      by simp⟩
  | cons chunk rest ih =>
    intro o acc hS
    rw [List.pairwise_cons] at hS
    obtain ⟨hhead, hrest⟩ := hS
    obtain ⟨D2, o1, hcol, hle, hpw, hrange, hbelow, hne, hlt⟩ :=
      ih (max o chunk.order + 1) (acc ++ countUp o chunk.order) hrest
    have hmax1 : o ≤ max o chunk.order := le_max_left _ _
    have hmax2 : chunk.order ≤ max o chunk.order := le_max_right _ _
    refine ⟨countUp o chunk.order ++ D2, o1, ?_, by omega, ?_, ?_, ?_, ?_, ?_⟩
    · rw [collectDiff, hcol, List.append_assoc]
    · rw [List.pairwise_append]
      refine ⟨pairwise_countUp _ _, hpw, ?_⟩
      intro a ha b hb
      have h1 := (mem_countUp _ _ _).1 ha
      have h2 := (hrange b hb).1
      omega
    · intro x hx
      rcases List.mem_append.1 hx with h | h
      · have h1 := (mem_countUp _ _ _).1 h
        omega
      · have h2 := hrange x h
        omega
    · intro x hx
      rcases List.mem_append.1 hx with h | h
      · exact ⟨chunk, List.mem_cons_self _ _, ((mem_countUp _ _ _).1 h).2⟩
      · obtain ⟨c, hc, hxc⟩ := hbelow x h
        exact ⟨c, List.mem_cons_of_mem _ hc, hxc⟩
    · intro x hx c hc
      rcases List.mem_append.1 hx with h | h
      · have h1 := (mem_countUp _ _ _).1 h
        rcases List.mem_cons.1 hc with rfl | hc1
        · omega
        · have := hhead c hc1
          omega
      · rcases List.mem_cons.1 hc with rfl | hc1
        · have h2 := (hrange x h).1
          omega
        · exact hne x h c hc1
    · intro c hc
      rcases List.mem_cons.1 hc with rfl | hc1
      · omega
      · exact hlt c hc1

theorem sortSame_sorted (cs : List RSameChunk) :
    (sortSame cs).Pairwise (fun x y => x.order ≤ y.order) := by
  haveI : IsTotal RSameChunk (fun x y => x.order ≤ y.order) := ⟨fun a b => le_total _ _⟩
  haveI : IsTrans RSameChunk (fun x y => x.order ≤ y.order) := ⟨fun a b c => le_trans⟩
  exact List.sorted_insertionSort (fun x y => x.order ≤ y.order) cs

theorem sortSame_perm (cs : List RSameChunk) : (sortSame cs).Perm cs :=
  List.perm_insertionSort _ cs

theorem mem_sortSame (cs : List RSameChunk) (c : RSameChunk) : c ∈ sortSame cs ↔ c ∈ cs :=
  (sortSame_perm cs).mem_iff

/-- Every entry of a table built by `calCheckSumByBlockLen` has its order in
`[0, N)`, `N` the number of entries. -/
theorem calCheckSumLoop_orders (H : List Byte → List Byte) (buf : List Byte) (B : Int) :
    ∀ (fuel : Nat) (order start endv : Int) (acc t : List RCheckSum),
      order = (acc.length : Int) →
      (∀ e ∈ acc, 0 ≤ e.Order ∧ e.Order < (acc.length : Int)) →
      calCheckSumLoop H buf B fuel order start endv acc = .ok t →
      ∀ e ∈ t, 0 ≤ e.Order ∧ e.Order < (t.length : Int) := by
  intro fuel
  induction fuel with
  | zero =>
    intro order start endv acc t ho hacc h
    unfold calCheckSumLoop at h
    split_ifs at h
    simp only [Except.ok.injEq] at h
    rw [← h]
    exact hacc
  | succ fuel ih =>
    intro order start endv acc t ho hacc h
    unfold calCheckSumLoop at h
    split_ifs at h with h1
    · cases hs : sliceFrom buf start with
      | error e =>
        rw [hs] at h
        simp at h
      | ok rest =>
        rw [hs] at h
        dsimp only at h
        cases hf : fillBlankByBlockLen rest B with
        | error e =>
          rw [hf] at h
          simp at h
        | ok tmpb =>
          rw [hf] at h
          dsimp only at h
          refine ih _ _ _ _ t (by simp [ho]) ?_ h
          intro e he
          rcases List.mem_append.1 he with h2 | h2
          · have := hacc e h2
            simp only [List.length_append, List.length_singleton]
            push_cast
            omega
          · simp only [List.mem_singleton] at h2
            subst h2
            simp only [List.length_append, List.length_singleton]
            push_cast
            omega
    · simp only [Except.ok.injEq] at h
      rw [← h]
      exact hacc

theorem table_orders (H : List Byte → List Byte) (buf : List Byte) (B : Int)
    (t : List RCheckSum) (h : calCheckSumByBlockLen H buf B = .ok t) :
    ∀ e ∈ t, 0 ≤ e.Order ∧ e.Order < (t.length : Int) :=
  calCheckSumLoop_orders H buf B buf.length 0 0 B [] t rfl (by simp) h

theorem firstStrong_mem (s : List Byte) :
    ∀ (cs : List RCheckSum) (e : RCheckSum), firstStrong s cs = some e → e ∈ cs := by
  intro cs
  induction cs with
  | nil =>
    intro e h
    simp [firstStrong] at h
  | cons c rest ih =>
    intro e h
    unfold firstStrong at h
    split_ifs at h with hc
    · simp only [Option.some.injEq] at h
      rw [← h]
      exact List.mem_cons_self _ _
    · exact List.mem_cons_of_mem _ (ih e h)

theorem Accepted.order_mem {H : List Byte → List Byte} {data : List Byte} {B : Int}
    {sums : List RCheckSum} {c : RSameChunk} (h : Accepted H data B (makeMap sums) c) :
    ∃ e ∈ sums, e.Order = c.order := by
  obtain ⟨-, -, -, e, he, ho⟩ := h
  have hm := firstStrong_mem _ _ e he
  unfold makeMap at hm
  exact ⟨e, (List.mem_filter.1 hm).1, ho⟩

/-- What the scan of `CheckByCheckSum` guarantees for its result. -/
theorem scan_result (H : List Byte → List Byte) (rf : RFile) (B : Int)
    (sums : List RCheckSum) (found : List RSameChunk)
    (h : scan H rf.data B (makeMap sums) rf.data.length true 0 (NewRollSum B) [] = .ok found) :
    (∀ c ∈ found, Accepted H rf.data B (makeMap sums) c) ∧
      found.Pairwise (fun x y => x.start + B ≤ y.start) := by
  obtain ⟨new, hnew, hacc, hpw⟩ :=
    scan_inv H rf.data B (makeMap sums) rf.data.length true 0 (NewRollSum B) [] found
      (le_refl _) (fun hc => by simp at hc) h
  rw [List.nil_append] at hnew
  subst hnew
  exact ⟨fun c hc => (hacc c hc).2, hpw⟩

/-- C18. Missing orders are ordered and in range: for a table built by
`calCheckSumByBlockLen`, the `diffOrders` returned by `CheckByCheckSum` are
strictly ascending, each lies in `[0, N)` with `N` the number of table entries,
and none is the order of a returned `sameChunk`; the returned `sameChunks`
are sorted by order ascending. -/
theorem diffOrders_ordered (H : List Byte → List Byte) (rf : RFile) (B : Int)
    (totalSum target : List Byte) (sums : List RCheckSum) (r : CheckResult)
    (ht : calCheckSumByBlockLen H target B = .ok sums)
    (hr : rf.CheckByCheckSum H B totalSum sums = .ok r) :
    r.diffOrders.Pairwise (· < ·) ∧
      (∀ x ∈ r.diffOrders, 0 ≤ x ∧ x < (sums.length : Int)) ∧
      (∀ x ∈ r.diffOrders, ∀ c ∈ r.sameChunks, c.order ≠ x) ∧
      r.sameChunks.Pairwise (fun a b => a.order ≤ b.order) := by
  rcases CheckByCheckSum_cases H rf B totalSum sums r hr with rfl | rfl | ⟨found, hs, rfl⟩
  · simp
  · simp
  · have hsorted := sortSame_sorted found
    obtain ⟨D, o1, hcol, hle, hpw, hrange, hbelow, hne, hlt⟩ :=
      collectDiff_spec (sortSame found) 0 [] hsorted
    have hacc := (scan_result H rf B sums found hs).1
    have horder : ∀ c ∈ sortSame found, c.order < (sums.length : Int) := by
      intro c hc
      obtain ⟨e, he, heo⟩ := (hacc c ((mem_sortSame found c).1 hc)).order_mem
      have := (table_orders H target B sums ht e he).2
      omega
    dsimp only
    rw [hcol]
    simp only [List.nil_append, len]
    refine ⟨?_, ?_, ?_, hsorted⟩
    · rw [List.pairwise_append]
      refine ⟨hpw, pairwise_countUp _ _, ?_⟩
      intro a ha b hb
      have h1 := (hrange a ha).2
      have h2 := ((mem_countUp _ _ _).1 hb).1
      omega
    · intro x hx
      rcases List.mem_append.1 hx with h | h
      · obtain ⟨c, hc, hxc⟩ := hbelow x h
        have h1 := horder c hc
        have h2 := (hrange x h).1
        omega
      · have h1 := (mem_countUp _ _ _).1 h
        omega
    · intro x hx c hc
      rcases List.mem_append.1 hx with h | h
      · exact hne x h c hc
      · have h1 := ((mem_countUp _ _ _).1 h).1
        have h2 := hlt c hc
        omega

/-- The ordering properties on the run with source `[1,2,1,2]` and target
`[1,2,1,2,3]` at block length 2. -/
theorem diffOrders_ordered_witness :
    (⟨false, false, [⟨0, 0⟩, ⟨2, 0⟩], [2]⟩ : CheckResult).diffOrders.Pairwise (· < ·) ∧
      (∀ x ∈ (⟨false, false, [⟨0, 0⟩, ⟨2, 0⟩], [2]⟩ : CheckResult).diffOrders,
        0 ≤ x ∧ x < (([⟨0, 3, 4, [1, 2]⟩, ⟨1, 3, 4, [1, 2]⟩, ⟨2, 3, 6, [3, 0]⟩] :
          List RCheckSum).length : Int)) ∧
      (∀ x ∈ (⟨false, false, [⟨0, 0⟩, ⟨2, 0⟩], [2]⟩ : CheckResult).diffOrders,
        ∀ c ∈ (⟨false, false, [⟨0, 0⟩, ⟨2, 0⟩], [2]⟩ : CheckResult).sameChunks, c.order ≠ x) ∧
      (⟨false, false, [⟨0, 0⟩, ⟨2, 0⟩], [2]⟩ : CheckResult).sameChunks.Pairwise
        (fun a b => a.order ≤ b.order) :=
  diffOrders_ordered id ⟨[1, 2, 1, 2], [1, 2, 1, 2], 2, []⟩ 2 [1, 2, 1, 2, 3] [1, 2, 1, 2, 3]
    [⟨0, 3, 4, [1, 2]⟩, ⟨1, 3, 4, [1, 2]⟩, ⟨2, 3, 6, [3, 0]⟩]
    ⟨false, false, [⟨0, 0⟩, ⟨2, 0⟩], [2]⟩ rfl rfl

theorem firstStrong_eq_find (ss : List Byte) (cs : List RCheckSum) :
    firstStrong ss cs = cs.find? (fun c => decide (c.SS = ss)) := by
  induction cs with
  | nil => rfl
  | cons c rest ih =>
    unfold firstStrong
    rw [List.find?_cons]
    by_cases h : c.SS = ss
    · have : CompareBytes ss c.SS = true := (CompareBytes_iff _ _).2 h.symm
      rw [if_pos this]
      simp [h]
    · have : CompareBytes ss c.SS = false :=
        (CompareBytes_false_iff _ _).2 (fun he => h he.symm)
      simp [this, h, ih]

theorem find_congr {α : Type} (p q : α → Bool) :
    ∀ l : List α, (∀ x ∈ l, p x = q x) → l.find? p = l.find? q := by
  intro l
  induction l with
  | nil => intro _; rfl
  | cons a rest ih =>
    intro h
    rw [List.find?_cons, List.find?_cons, h a (List.mem_cons_self _ _),
      ih (fun x hx => h x (List.mem_cons_of_mem _ hx))]

/-- Looking up the weak key and then comparing strong sums finds the first
table entry with that weak pair and that strong sum; the weak values are
16-bit. -/
theorem firstStrong_makeMap (H : List Byte → List Byte) (sums : List RCheckSum) (w : List Byte)
    (hu : ∀ s ∈ sums, s.A < 65536 ∧ s.B < 65536) :
    firstStrong (calStrongSum H w)
        (makeMap sums (joinWeakSum (calWeakSum w).1 (calWeakSum w).2))
      = firstEntry H sums w := by
  rw [firstStrong_eq_find]
  unfold makeMap firstEntry
  rw [List.find?_filter]
  apply find_congr
  intro s hs
  obtain ⟨h1, h2⟩ := hu s hs
  obtain ⟨h3, h4⟩ := calWeakSum_lt w
  have hkey : joinWeakSum s.A s.B = joinWeakSum (calWeakSum w).1 (calWeakSum w).2 ↔
      (s.A, s.B) = calWeakSum w := by
    unfold joinWeakSum
    constructor
    · intro h
      have ha : s.A = (calWeakSum w).1 := by omega
      have hb : s.B = (calWeakSum w).2 := by omega
      exact Prod.ext ha hb
    · intro h
      have ha : s.A = (calWeakSum w).1 := congrArg Prod.fst h
      have hb : s.B = (calWeakSum w).2 := congrArg Prod.snd h
      rw [ha, hb]
  simp only [hkey]
  simp

/-- C19. First-candidate matching: in every completed run of
`CheckByCheckSum` over a table with 16-bit weak values, every returned
`sameChunk` has `0 <= start < len(source)`, and its order is the `Order` of
the first table entry, in table sequence, whose weak pair equals
`calWeakSum(w)` and whose strong sum equals `calStrongSum(w)`, `w` being the
source from `start`, cut or zero-padded to exactly `blockLen` bytes. -/
theorem first_candidate (H : List Byte → List Byte) (rf : RFile) (B : Int)
    (totalSum : List Byte) (sums : List RCheckSum) (r : CheckResult)
    (hu : ∀ s ∈ sums, s.A < 65536 ∧ s.B < 65536)
    (hr : rf.CheckByCheckSum H B totalSum sums = .ok r) :
    ∀ c ∈ r.sameChunks, 0 ≤ c.start ∧ c.start < len rf.data ∧
      ∃ e, firstEntry H sums (paddedWindow rf.data c.start.toNat B.toNat) = some e ∧
        e.Order = c.order := by
  rcases CheckByCheckSum_cases H rf B totalSum sums r hr with rfl | rfl | ⟨found, hs, rfl⟩
  · simp
  · simp
  · intro c hc
    obtain ⟨h0, h1, -, e, he, ho⟩ :=
      (scan_result H rf B sums found hs).1 c ((mem_sortSame found c).1 hc)
    rw [firstStrong_makeMap H sums _ hu] at he
    exact ⟨h0, h1, e, he, ho⟩

/-- First-candidate matching on the run with source `[1,2,1,2]` and target
`[1,2,1,2,3]`: both chunks are bound to the table entry of order 0. -/
theorem first_candidate_witness :
    RFile.CheckByCheckSum id ⟨[1, 2, 1, 2], [1, 2, 1, 2], 2, []⟩ 2 [1, 2, 1, 2, 3]
        [⟨0, 3, 4, [1, 2]⟩, ⟨1, 3, 4, [1, 2]⟩, ⟨2, 3, 6, [3, 0]⟩]
        = .ok ⟨false, false, [⟨0, 0⟩, ⟨2, 0⟩], [2]⟩ ∧
    ∀ c ∈ (⟨false, false, [⟨0, 0⟩, ⟨2, 0⟩], [2]⟩ : CheckResult).sameChunks,
      0 ≤ c.start ∧ c.start < len (⟨[1, 2, 1, 2], [1, 2, 1, 2], 2, []⟩ : RFile).data ∧
      ∃ e, firstEntry id [⟨0, 3, 4, [1, 2]⟩, ⟨1, 3, 4, [1, 2]⟩, ⟨2, 3, 6, [3, 0]⟩]
          (paddedWindow (⟨[1, 2, 1, 2], [1, 2, 1, 2], 2, []⟩ : RFile).data c.start.toNat
            (2 : Int).toNat) = some e ∧
        e.Order = c.order :=
  ⟨rfl, first_candidate id ⟨[1, 2, 1, 2], [1, 2, 1, 2], 2, []⟩ 2 [1, 2, 1, 2, 3]
    [⟨0, 3, 4, [1, 2]⟩, ⟨1, 3, 4, [1, 2]⟩, ⟨2, 3, 6, [3, 0]⟩]
    ⟨false, false, [⟨0, 0⟩, ⟨2, 0⟩], [2]⟩ (by decide) rfl⟩

/-- C20. Matched source ranges never overlap: in every completed run of
`CheckByCheckSum` with block length `B`, any two returned `sameChunks` at
distinct positions have start offsets at least `B` apart, and `B >= 1`
whenever a chunk is returned, so the ranges `[start, start + B)` are pairwise
disjoint, also when several chunks carry the same order. -/
theorem chunks_disjoint (H : List Byte → List Byte) (rf : RFile) (B : Int)
    (totalSum : List Byte) (sums : List RCheckSum) (r : CheckResult)
    (hr : rf.CheckByCheckSum H B totalSum sums = .ok r) :
    r.sameChunks.Pairwise (fun x y => B ≤ |x.start - y.start|) ∧
      (r.sameChunks ≠ [] → 1 ≤ B) := by
  rcases CheckByCheckSum_cases H rf B totalSum sums r hr with rfl | rfl | ⟨found, hs, rfl⟩
  · simp
  · simp
  · obtain ⟨hacc, hpw⟩ := scan_result H rf B sums found hs
    have hB : found ≠ [] → 1 ≤ B := by
      intro hne
      obtain ⟨c, hc⟩ := List.exists_mem_of_ne_nil _ hne
      exact (hacc c hc).2.2.1
    constructor
    · by_cases hf : found = []
      · subst hf
        exact List.Pairwise.nil
      · have hB1 := hB hf
        have hsym : found.Pairwise (fun x y => B ≤ |x.start - y.start|) := by
          refine hpw.imp ?_
          intro a b hab
          rw [abs_sub_comm, abs_of_nonneg (by omega)]
          omega
        refine (sortSame_perm found).symm.pairwise hsym ?_
        intro a b hab
        rwa [abs_sub_comm]
    · intro hne
      obtain ⟨c, hc⟩ := List.exists_mem_of_ne_nil _ hne
      exact (hacc c ((mem_sortSame found c).1 hc)).2.2.1

/-- Disjointness on the run with source `[1,2,1,2]` and target `[1,2,1,2,3]`:
the two chunks of order 0 start two bytes apart. -/
theorem chunks_disjoint_witness :
    (⟨false, false, [⟨0, 0⟩, ⟨2, 0⟩], [2]⟩ : CheckResult).sameChunks.Pairwise
        (fun x y => (2 : Int) ≤ |x.start - y.start|) ∧
      ((⟨false, false, [⟨0, 0⟩, ⟨2, 0⟩], [2]⟩ : CheckResult).sameChunks ≠ [] → (1 : Int) ≤ 2) :=
  chunks_disjoint id ⟨[1, 2, 1, 2], [1, 2, 1, 2], 2, []⟩ 2 [1, 2, 1, 2, 3]
    [⟨0, 3, 4, [1, 2]⟩, ⟨1, 3, 4, [1, 2]⟩, ⟨2, 3, 6, [3, 0]⟩]
    ⟨false, false, [⟨0, 0⟩, ⟨2, 0⟩], [2]⟩ rfl

/-! ## The append-only scenario -/

theorem find_range'_map {α : Type} (f : Nat → α) (p : α → Bool) :
    ∀ (n s i : Nat), s ≤ i → i < s + n → p (f i) = true →
      ∃ j, s ≤ j ∧ j ≤ i ∧ ((List.range' s n).map f).find? p = some (f j) ∧
        ∀ j1, s ≤ j1 → j1 < j → p (f j1) = false := by
  intro n
  induction n with
  | zero =>
    intro s i h1 h2 _
    omega
  | succ n ih =>
    intro s i h1 h2 hp
    rw [List.range'_succ, List.map_cons, List.find?_cons]
    by_cases hs : p (f s) = true
    · refine ⟨s, le_refl _, h1, by rw [hs], ?_⟩
      intro j1 h3 h4
      omega
    · have hs1 : p (f s) = false := by simpa using hs
      have hne : s ≠ i := by
        intro he
        rw [he] at hs
        exact hs hp
      obtain ⟨j, hj1, hj2, hfind, hmin⟩ := ih (s + 1) i (by omega) (by omega) hp
      refine ⟨j, by omega, hj2, by rw [hs1]; exact hfind, ?_⟩
      intro j1 h3 h4
      by_cases he : j1 = s
      · rw [he]
        exact hs1
      · exact hmin j1 (by omega) h4

theorem naturalBlock_full (src : List Byte) (b i : Nat) (h : (i + 1) * b ≤ src.length) :
    naturalBlock src b i = (src.drop (i * b)).take b := by
  unfold naturalBlock
  rw [min_eq_left h, List.drop_take]
  congr 1
  have : (i + 1) * b = i * b + b := by ring
  omega

/-- A full block of the source is the same padded block in the target that
extends the source. -/
theorem paddedBlock_append (src suffix : List Byte) (b i : Nat)
    (h : (i + 1) * b ≤ src.length) :
    paddedBlock (src ++ suffix) b i = naturalBlock src b i := by
  unfold paddedBlock
  have hle : (i + 1) * b ≤ (src ++ suffix).length := by
    rw [List.length_append]
    omega
  have hb : (i + 1) * b - i * b = b := by
    have : (i + 1) * b = i * b + b := by ring
    omega
  have hlen : ((List.take ((i + 1) * b) src).drop (i * b)).length = b := by
    rw [List.length_drop, List.length_take, min_eq_left h, hb]
  dsimp only
  rw [min_eq_left hle, List.take_append_of_le_length h, hlen, Nat.sub_self,
    List.replicate_zero, List.append_nil, naturalBlock_full src b i h, List.drop_take, hb]

theorem scanSum_init_ok (data : List Byte) (b k : Nat) (rs : RollSum) (hb : 1 ≤ b)
    (hk : k < data.length) :
    ∃ rs1, scanSum data (b : Int) true (k : Int) rs = .ok rs1 := by
  obtain ⟨t, ht⟩ := paddedWindow_head data k b hk hb
  unfold scanSum
  rw [if_pos rfl, window_nat data k b (le_of_lt hk)]
  dsimp only
  unfold RollSum.InitByBuf
  have hidx : index (paddedWindow data k b) 0 = .ok (data.getD k 0) := by
    rw [ht]
    simp [index, len]
  rw [hidx]
  exact ⟨_, rfl⟩

theorem blockEntry_lt (H : List Byte → List Byte) (buf : List Byte) (b i : Nat) :
    (blockEntry H buf b i).A < 65536 ∧ (blockEntry H buf b i).B < 65536 :=
  calWeakSum_lt _

/-- In the table of `src ++ suffix`, the first entry with the sums of the full
source block `i` exists, has an order in `[0, i]`, and has order `i` when no
earlier block of the source has the same sums. -/
theorem firstEntry_block (H : List Byte → List Byte) (src suffix : List Byte) (b i : Nat)
    (hb : 1 ≤ b) (h : (i + 1) * b ≤ src.length) :
    ∃ e, firstEntry H
        ((List.range (blockCount (src ++ suffix).length b)).map (blockEntry H (src ++ suffix) b))
        (naturalBlock src b i) = some e ∧
      0 ≤ e.Order ∧ e.Order ≤ (i : Int) ∧
      ((∀ j < i, ¬ (calWeakSum (naturalBlock src b j) = calWeakSum (naturalBlock src b i) ∧
          calStrongSum H (naturalBlock src b j) = calStrongSum H (naturalBlock src b i))) →
        e.Order = (i : Int)) := by
  have hiN : i < blockCount (src ++ suffix).length b := by
    rw [lt_blockCount_iff _ b i hb, List.length_append]
    have : (i + 1) * b = i * b + b := by ring
    omega
  have hpi : (decide (((blockEntry H (src ++ suffix) b i).A, (blockEntry H (src ++ suffix) b i).B)
        = calWeakSum (naturalBlock src b i)) &&
      decide ((blockEntry H (src ++ suffix) b i).SS = calStrongSum H (naturalBlock src b i)))
      = true := by
    simp [blockEntry, paddedBlock_append src suffix b i h]
  obtain ⟨j, -, hji, hfind, hmin⟩ :=
    find_range'_map (blockEntry H (src ++ suffix) b)
      (fun s : RCheckSum => decide ((s.A, s.B) = calWeakSum (naturalBlock src b i)) &&
        decide (s.SS = calStrongSum H (naturalBlock src b i)))
      (blockCount (src ++ suffix).length b) 0 i (Nat.zero_le _) (by omega) hpi
  unfold firstEntry
  rw [List.range_eq_range', hfind]
  refine ⟨_, rfl, by simp [blockEntry], by simp [blockEntry]; exact_mod_cast hji, ?_⟩
  intro hdistinct
  simp only [blockEntry]
  by_contra hne
  have hlt : j < i := by
    have : j ≠ i := fun he => hne (by rw [he])
    omega
  have hjfull : (j + 1) * b ≤ src.length := by
    have : (j + 1) * b ≤ (i + 1) * b := Nat.mul_le_mul_right _ (by omega)
    omega
  have hpj := List.find?_some hfind
  simp only [blockEntry, paddedBlock_append src suffix b j hjfull, Bool.and_eq_true,
    decide_eq_true_eq] at hpj
  exact hdistinct j hlt ⟨by rw [← hpj.1], hpj.2⟩

/-- The scan of a source made of `k` full blocks against the table of a target
that extends it: started at block `i` it accepts every block in turn. -/
theorem scan_aligned (H : List Byte → List Byte) (src suffix : List Byte) (b k : Nat)
    (hb : 1 ≤ b) (hlen : src.length = k * b) :
    ∀ (fuel i : Nat) (rs : RollSum) (acc : List RSameChunk), i ≤ k → k - i ≤ fuel →
      scan H src (b : Int)
          (makeMap ((List.range (blockCount (src ++ suffix).length b)).map
            (blockEntry H (src ++ suffix) b)))
          fuel true ((i * b : Nat) : Int) rs acc
        = .ok (acc ++ (List.range' i (k - i)).map
            (blockChunk H ((List.range (blockCount (src ++ suffix).length b)).map
              (blockEntry H (src ++ suffix) b)) src b)) := by
  intro fuel
  induction fuel with
  | zero =>
    intro i rs acc hik hf
    have hi : i = k := by omega
    subst hi
    rw [scan_done _ _ _ _ _ _ _ _ _ (by simp only [len, hlen]; omega)]
    simp
  | succ fuel ih =>
    intro i rs acc hik hf
    by_cases hi : i = k
    · subst hi
      rw [scan_done _ _ _ _ _ _ _ _ _ (by simp only [len, hlen]; omega)]
      simp
    · have hlt : i < k := by omega
      have hfull : (i + 1) * b ≤ src.length := by
        rw [hlen]
        exact Nat.mul_le_mul_right _ (by omega)
      have hk : i * b < src.length := by
        have : (i + 1) * b = i * b + b := by ring
        omega
      have h1 : (((i * b : Nat) : Int)) < len src := by
        simp only [len]
        omega
      obtain ⟨rs1, hs⟩ := scanSum_init_ok src b (i * b) rs hb hk
      have hR := scanSum_init src b _ rs rs1 (by omega) h1 hs
      have hw := hR.window
      obtain ⟨-, -, -, ha, hbb, -⟩ := id hR
      have hW : paddedWindow src (((i * b : Nat) : Int)).toNat ((b : Int)).toNat
          = naturalBlock src b i := by
        rw [Int.toNat_ofNat, Int.toNat_ofNat, paddedWindow_full src (i * b) b
          (by have : (i + 1) * b = i * b + b := by ring
              omega), naturalBlock_full src b i hfull]
      rw [hW] at hw ha hbb
      obtain ⟨e, he, -⟩ := firstEntry_block H src suffix b i hb hfull
      have hf1 : firstStrong (calStrongSum H (naturalBlock src b i))
          (makeMap ((List.range (blockCount (src ++ suffix).length b)).map
            (blockEntry H (src ++ suffix) b)) (joinWeakSum rs1.a rs1.b)) = some e := by
        rw [ha, hbb, firstStrong_makeMap H _ _ (by
          intro s hs
          obtain ⟨j, -, rfl⟩ := List.mem_map.1 hs
          exact blockEntry_lt H _ b j)]
        exact he
      rw [scan_hit H src b _ fuel true _ rs rs1 acc _ e h1 hs hw hf1]
      have hnext : (((i * b : Nat) : Int)) + (b : Int) = (((i + 1) * b : Nat) : Int) := by
        push_cast
        ring
      rw [hnext, ih (i + 1) rs1 _ (by omega) (by omega)]
      have hr : List.range' i (k - i) = i :: List.range' (i + 1) (k - (i + 1)) := by
        rw [show k - i = (k - (i + 1)) + 1 by omega, List.range'_succ]
      have hc : blockChunk H ((List.range (blockCount (src ++ suffix).length b)).map
          (blockEntry H (src ++ suffix) b)) src b i
          = { start := ((i * b : Nat) : Int), order := e.Order } := by
        simp only [blockChunk, boundOrder, he]
      rw [hr, List.map_cons, hc, List.append_assoc]
      rfl

theorem dominated_blocks (f : Nat → RSameChunk) :
    ∀ (n s : Nat), (∀ j, s ≤ j → j < s + n → (f j).order ≤ (j : Int)) →
      Dominated ((List.range' s n).map f) (s : Int) := by
  intro n
  induction n with
  | zero =>
    intro s _
    trivial
  | succ n ih =>
    intro s h
    rw [List.range'_succ, List.map_cons]
    refine ⟨h s (le_refl _) (by omega), ?_⟩
    have := ih (s + 1) (fun j h1 h2 => h j (by omega) (by omega))
    simpa using this

theorem dominated_insert (x : RSameChunk) :
    ∀ (S : List RSameChunk) (c : Int), x.order ≤ c → Dominated S (c + 1) →
      Dominated (S.orderedInsert (fun a b => a.order ≤ b.order) x) c := by
  intro S
  induction S with
  | nil =>
    intro c hx _
    exact ⟨hx, trivial⟩
  | cons y rest ih =>
    intro c hx hS
    obtain ⟨hy, hrest⟩ := hS
    rw [List.orderedInsert]
    split_ifs with hxy
    · exact ⟨hx, hy, hrest⟩
    · exact ⟨by omega, ih (c + 1) (by omega) hrest⟩

theorem dominated_sort :
    ∀ (L : List RSameChunk) (c : Int), Dominated L c → Dominated (sortSame L) c := by
  intro L
  induction L with
  | nil =>
    intro c h
    exact h
  | cons x rest ih =>
    intro c h
    obtain ⟨hx, hrest⟩ := h
    exact dominated_insert x _ c hx (ih (c + 1) hrest)

/-- Over a dominated chunk list the collecting walk appends nothing and moves
its cursor by one per chunk. -/
theorem collectDiff_dominated :
    ∀ (S : List RSameChunk) (c : Int) (acc : List Int), Dominated S c →
      collectDiff S c acc = (c + (S.length : Int), acc) := by
  intro S
  induction S with
  | nil =>
    intro c acc _
    simp [collectDiff]
  | cons y rest ih =>
    intro c acc h
    obtain ⟨hy, hrest⟩ := h
    have hcount : countUp c y.order = [] := by
      unfold countUp
      rw [show (y.order - c).toNat = 0 by omega]
      rfl
    rw [collectDiff, hcount, List.append_nil, max_eq_left hy, ih (c + 1) acc hrest]
    simp only [List.length_cons]
    push_cast
    congr 1
    ring

/-- C14 (counterexample). Source `[1,2,1,2]` (two blocks at block length 2),
target the source followed by `[3]`, the identity as digest: both source
blocks are bound to order 0, so order 1 is the order of no returned
`sameChunk`. -/
theorem append_only_duplicate_blocks :
    ∃ r, RFile.CheckByCheckSum id ⟨[1, 2, 1, 2], id [1, 2, 1, 2], 2, []⟩ 2 (id [1, 2, 1, 2, 3])
        [⟨0, 3, 4, id [1, 2]⟩, ⟨1, 3, 4, id [1, 2]⟩, ⟨2, 3, 6, id [3, 0]⟩] = .ok r ∧
      calCheckSumByBlockLen id ([1, 2, 1, 2] ++ [3]) 2
        = .ok [⟨0, 3, 4, id [1, 2]⟩, ⟨1, 3, 4, id [1, 2]⟩, ⟨2, 3, 6, id [3, 0]⟩] ∧
      ¬ ∃ c ∈ r.sameChunks, c.order = 1 :=
  ⟨⟨false, false, [⟨0, 0⟩, ⟨2, 0⟩], [2]⟩, rfl, rfl, by decide⟩

/-- C14 (amended). Append-only scenario: for a block length `B >= 1`, a source
of exactly `k` blocks and a target made of the source followed by a non-empty
suffix, with differing total checksums, `CheckByCheckSum` on the source
against the target's table returns `diffOrders` that contain only orders
`>= k`; and for every `i < k` it returns a `sameChunk` starting at `i*B` whose
order is that of the first table entry with the weak and strong sums of source
block `i`: an order in `[0, i]`, equal to `i` whenever no earlier source block
has the same sums. -/
theorem append_only (H : List Byte → List Byte) (b k : Nat) (src suffix ts : List Byte)
    (rf : RFile) (hb : 1 ≤ b) (hlen : src.length = k * b) (_hsuf : suffix ≠ [])
    (hdata : rf.data = src) (hbl : rf.blockLen = (b : Int))
    (hts : CompareBytes ts rf.totalSum = false) :
    ∃ sums r, calCheckSumByBlockLen H (src ++ suffix) (b : Int) = .ok sums ∧
      rf.CheckByCheckSum H (b : Int) ts sums = .ok r ∧
      (∀ x ∈ r.diffOrders, (k : Int) ≤ x) ∧
      ∀ i < k, ∃ c ∈ r.sameChunks, ∃ e, c.start = ((i * b : Nat) : Int) ∧
        firstEntry H sums (naturalBlock src b i) = some e ∧ c.order = e.Order ∧
        0 ≤ c.order ∧ c.order ≤ (i : Int) ∧
        ((∀ j < i, ¬ (calWeakSum (naturalBlock src b j) = calWeakSum (naturalBlock src b i) ∧
            calStrongSum H (naturalBlock src b j) = calStrongSum H (naturalBlock src b i))) →
          c.order = (i : Int)) := by
  have hfullOf : ∀ i, i < k → (i + 1) * b ≤ src.length := by
    intro i hi
    rw [hlen]
    exact Nat.mul_le_mul_right _ (by omega)
  have hkle : k ≤ src.length := by
    rw [hlen]
    exact Nat.le_mul_of_pos_right _ (by omega)
  have hscan := scan_aligned H src suffix b k hb hlen src.length 0 (NewRollSum b) []
    (Nat.zero_le _) (by omega)
  simp only [Nat.zero_mul, Nat.cast_zero, List.nil_append, Nat.sub_zero] at hscan
  rw [← hdata] at hscan
  have hcheck := CheckByCheckSum_of_scan H rf (b : Int) ts _ _ (by omega) hbl hts hscan
  rw [hdata] at hcheck
  have hdom : Dominated ((List.range' 0 k).map
      (blockChunk H ((List.range (blockCount (src ++ suffix).length b)).map
        (blockEntry H (src ++ suffix) b)) src b)) 0 := by
    have := dominated_blocks (blockChunk H ((List.range (blockCount (src ++ suffix).length b)).map
        (blockEntry H (src ++ suffix) b)) src b) k 0 (by
      intro j _ hj
      obtain ⟨e, he, -, hle, -⟩ := firstEntry_block H src suffix b j hb (hfullOf j (by omega))
      simp only [blockChunk, boundOrder, he]
      exact hle)
    simpa using this
  have hwalk := collectDiff_dominated _ 0 [] (dominated_sort _ 0 hdom)
  have hlenS : (sortSame ((List.range' 0 k).map
      (blockChunk H ((List.range (blockCount (src ++ suffix).length b)).map
        (blockEntry H (src ++ suffix) b)) src b))).length = k := by
    rw [(sortSame_perm _).length_eq, List.length_map, List.length_range']
  rw [hlenS] at hwalk
  refine ⟨_, _, calCheckSumByBlockLen_eq H (src ++ suffix) b hb, hcheck, ?_, ?_⟩
  · intro x hx
    simp only [hwalk, List.nil_append, zero_add] at hx
    exact ((mem_countUp _ _ _).1 hx).1
  · intro i hi
    obtain ⟨e, he, h0, hle, hdist⟩ := firstEntry_block H src suffix b i hb (hfullOf i hi)
    refine ⟨blockChunk H ((List.range (blockCount (src ++ suffix).length b)).map
        (blockEntry H (src ++ suffix) b)) src b i, ?_, e, rfl, he, ?_, ?_, ?_, ?_⟩
    · show _ ∈ sortSame _
      rw [mem_sortSame]
      exact List.mem_map.2 ⟨i, by simp [List.mem_range']; omega, rfl⟩
    · simp only [blockChunk, boundOrder, he]
    · simp only [blockChunk, boundOrder, he]
      exact h0
    · simp only [blockChunk, boundOrder, he]
      exact hle
    · intro hd
      simp only [blockChunk, boundOrder, he]
      exact hdist hd

/-- The append-only scenario with source `[1,2,3,4]`, suffix `[5]` and block
length 2. -/
theorem append_only_witness :
    ∃ sums r, calCheckSumByBlockLen id ([1, 2, 3, 4] ++ [5]) ((2 : Nat) : Int) = .ok sums ∧
      RFile.CheckByCheckSum id ⟨[1, 2, 3, 4], [1, 2, 3, 4], 2, []⟩ ((2 : Nat) : Int) [0] sums
        = .ok r ∧
      (∀ x ∈ r.diffOrders, ((2 : Nat) : Int) ≤ x) ∧
      ∀ i < 2, ∃ c ∈ r.sameChunks, ∃ e, c.start = ((i * 2 : Nat) : Int) ∧
        firstEntry id sums (naturalBlock [1, 2, 3, 4] 2 i) = some e ∧ c.order = e.Order ∧
        0 ≤ c.order ∧ c.order ≤ (i : Int) ∧
        ((∀ j < i, ¬ (calWeakSum (naturalBlock [1, 2, 3, 4] 2 j)
              = calWeakSum (naturalBlock [1, 2, 3, 4] 2 i) ∧
            calStrongSum id (naturalBlock [1, 2, 3, 4] 2 j)
              = calStrongSum id (naturalBlock [1, 2, 3, 4] 2 i))) →
          c.order = (i : Int)) :=
  append_only id 2 2 [1, 2, 3, 4] [5] [0] ⟨[1, 2, 3, 4], [1, 2, 3, 4], 2, []⟩ (by decide) rfl
    (by decide) rfl rfl (by decide)

end Rsync
